import Mathlib

/-!
libdns/hexonet: record line codec and record reconciliation.

A shallow embedding of `client.go` and `provider.go`.

* Go strings are `String`; the regular expression engine works on their list of characters.
* `time.Duration` is an `Int` number of nanoseconds (an int64), `int` is 64 bits wide.
* A run-time panic is the error side of `Except Abort`; a Go `error` value is its message.
* The remote API (`apiclient.APIClient`) is a state machine `Remote σ`; every request the
  code sends is appended to a trace.
* Two functions the code calls are not part of the two source files and are parameters
  (`Deps`): `txtsanitize.TXTSanitize` and the float64 conversion `int(d.Seconds())`.
-/

namespace Hexonet

/-! ## Go primitives -/

/-- A run-time panic of the Go program. -/
inductive Abort where
  | indexOutOfRange
deriving DecidableEq, Repr

deriving instance DecidableEq for Except

/-- The verb `%d` of `fmt.Sprintf` on an integer. -/
def fmtInt (z : Int) : String :=
  if z < 0 then "-" ++ Nat.repr z.natAbs else Nat.repr z.natAbs

/-- The largest `int` (64 bits). -/
def maxInt : Int := 9223372036854775807

/-- The smallest `int` (64 bits). -/
def minInt : Int := -9223372036854775808

/-- Two's complement wrap-around of int64 arithmetic. -/
def wrapInt64 (z : Int) : Int :=
  (z + 9223372036854775808) % 18446744073709551616 - 9223372036854775808

/-- The constant `time.Second`, in nanoseconds. -/
def Second : Int := 1000000000

/-- The error kinds of `strconv.NumError`. -/
inductive NumError where
  | ErrSyntax
  | ErrRange
deriving DecidableEq, Repr

/-- The value of a string of decimal digits read after the value `acc`, `none` when a
character is not `0`..`9`; used to state what the parsers return. -/
def digitsValue : List Char → Nat → Option Nat
  | [], acc => some acc
  | c :: cs, acc =>
    if c.isDigit then digitsValue cs (acc * 10 + (c.toNat - 48)) else none

/-- The loop of `strconv.ParseUint` (base 10, 64 bits) from the value `n` read so far,
character by character: a character that is no digit ends it with a syntax error and 0; a
value that leaves 64 bits ends it with a range error and the largest uint64. -/
def parseUintLoop : List Char → Nat → Nat × Option NumError
  | [], n => (n, none)
  | c :: cs, n =>
    if c.isDigit = false then (0, some .ErrSyntax)
    else if 1844674407370955162 ≤ n then (18446744073709551615, some .ErrRange)
    else if 18446744073709551615 < n * 10 + (c.toNat - 48) then
      (18446744073709551615, some .ErrRange)
    else parseUintLoop cs (n * 10 + (c.toNat - 48))

/-- The function `strconv.ParseUint(s, 10, 0)`: the empty string is a syntax error. -/
def ParseUint (ds : List Char) : Nat × Option NumError :=
  match ds with
  | [] => (0, some .ErrSyntax)
  | _ => parseUintLoop ds 0

/-- The function `strconv.Atoi` with a 64-bit `int`, which is `ParseInt(s, 10, 0)` (its
fast path for short strings returns the same): an optional sign, then `ParseUint`. A
syntax error returns 0; a value out of range returns the nearest `int` bound, with
`ErrRange`. -/
def Atoi (s : String) : Int × Option NumError :=
  let body (neg : Bool) (ds : List Char) : Int × Option NumError :=
    match ParseUint ds with
    | (_, some .ErrSyntax) => (0, some .ErrSyntax)
    | (un, _) =>
      if !neg && decide (9223372036854775808 ≤ un) then (maxInt, some .ErrRange)
      else if neg && decide (9223372036854775808 < un) then (minInt, some .ErrRange)
      else if neg then (-(un : Int), none) else ((un : Int), none)
  match s.data with
  | [] => (0, some .ErrSyntax)
  | '+' :: ds => body false ds
  | '-' :: ds => body true ds
  | ds => body false ds

/-! ## The regular expression of `ParseRR` -/

/-- The class `.` (no flag `s`): every character but the newline. -/
def isDot (c : Char) : Bool := c != '\n'

/-- The class `\s`: tab, newline, form feed, carriage return, space. -/
def isSpace (c : Char) : Bool :=
  c == '\t' || c == '\n' || c == '\x0c' || c == '\r' || c == ' '

/-- The class `\d`: `0`..`9`. -/
def isDigit (c : Char) : Bool := c.isDigit

/-- The class `\w`: `0`..`9`, `A`..`Z`, `a`..`z`, `_`. -/
def isWord (c : Char) : Bool := c.isDigit || c.isUpper || c.isLower || c == '_'

/-- The pieces of a pattern: a literal character, or `x+` for a character class `x`
(greedy). The pattern is anchored at both ends. -/
inductive Tok where
  | lit (c : Char)
  | plus (cls : Char → Bool)

/-- The greedy `x+` followed by the rest of the pattern `cont`: try `k` characters, then
`k - 1`, ..., down to one; the first length for which the rest matches wins. -/
def tryPlus (cont : List Char → Option (List (List Char))) (s : List Char) :
    Nat → Option (List (List Char))
  | 0 => none
  | k + 1 =>
    match cont (s.drop (k + 1)) with
    | some ps => some (s.take (k + 1) :: ps)
    | none => tryPlus cont s k

/-- Backtracking match of a sequence of pieces against the whole input, in the
preference order of Go's `regexp` (leftmost-first; a greedy repetition prefers more).
The result lists the text each piece matched. -/
def matchToks : List Tok → List Char → Option (List (List Char))
  | [], s => if s.isEmpty then some [] else none
  | .lit c :: ts, s =>
    match s with
    | [] => none
    | x :: xs => if x = c then (matchToks ts xs).map (fun ps => [x] :: ps) else none
  | .plus cls :: ts, s => tryPlus (matchToks ts) s (s.takeWhile cls).length

/-- The part of the pattern after the first group: `\s+(\d+)\s+IN\s+(\w+)\s+(.+)$`. -/
def rrTail : List Tok :=
  [.plus isSpace, .plus isDigit, .plus isSpace, .lit 'I', .lit 'N', .plus isSpace,
   .plus isWord, .plus isSpace, .plus isDot]

/-- The pattern `^(.+\.)\s+(\d+)\s+IN\s+(\w+)\s+(.+)$`. -/
def rrPattern : List Tok := .plus isDot :: .lit '.' :: rrTail

/-- The call `regex.FindStringSubmatch(rr)`: `none` for a nil result, else the four
groups (the elements 1 to 4 of the result). -/
def FindStringSubmatch (rr : String) : Option (String × String × String × String) :=
  match matchToks rrPattern rr.data with
  | some [n, d, _, ttl, _, _, _, _, typ, _, value] =>
    some (String.mk (n ++ d), String.mk ttl, String.mk typ, String.mk value)
  | _ => none

/-- The function `ParseRR`: the groups of the match; indexing a nil match panics. -/
def ParseRR (rr : String) : Except Abort (String × String × String × String) :=
  match FindStringSubmatch rr with
  | none => .error .indexOutOfRange
  | some g => .ok g

/-! ## Records and the line format -/

/-- The type `libdns.Record`, with the fields the code reads. `TTL` is a `time.Duration`:
nanoseconds; `Typ` is the field `Type`. -/
structure Record where
  Typ : String
  Name : String
  Value : String
  TTL : Int
deriving DecidableEq, Repr

/-- Functions called by the code whose source is outside `client.go` and `provider.go`:
* `TXTSanitize` is `txtsanitize.TXTSanitize` (a subpackage of the repository);
* `seconds d` is `int(d.Seconds())`, a float64 computation of package `time`: `Seconds`
  returns `float64(d / Second) + float64(d % Second) / 1e9`. -/
structure Deps where
  TXTSanitize : String → String
  seconds : Int → Int

/-- On a whole number of seconds `float64(sec) + 0/1e9` is exactly `sec`, so
`int(d.Seconds())` is `sec`. -/
def Deps.ExactOnWholeSeconds (D : Deps) : Prop :=
  ∀ s : Int, minInt ≤ s * Second → s * Second ≤ maxInt → D.seconds (s * Second) = s

/-- The function `TXTSanitize` of `client.go`. -/
def TXTSanitize (D : Deps) (record : Record) : String :=
  if record.Typ = "TXT" then D.TXTSanitize record.Value else record.Value

/-- The line both `addDNSEntry` and `removeDNSEntry` format for a record:
`fmt.Sprintf("%s %d IN %s %s", Name, int(TTL.Seconds()), Type, TXTSanitize(record))`. -/
def formatRR (D : Deps) (r : Record) : String :=
  r.Name ++ " " ++ fmtInt (D.seconds r.TTL) ++ " IN " ++ r.Typ ++ " " ++ TXTSanitize D r

/-- The body of the loop of `getDNSEntries`: `ParseRR`, then `strconv.Atoi` with its error
dropped, then `time.Second * time.Duration(ttl)` in int64. -/
def recordOfRR (rr : String) : Except Abort Record :=
  match ParseRR rr with
  | .error a => .error a
  | .ok (name, ttlStr, typ, value) =>
    .ok { Typ := typ, Name := name, Value := value,
          TTL := wrapInt64 (Second * (Atoi ttlStr).1) }

/-! ## Go maps with string keys -/

/-- A Go `map[string]α`: an association list with distinct keys. -/
abbrev GoMap (α : Type) := List (String × α)

/-- The assignment `m[k] = v`: overwrite the entry of `k`, or add one. -/
def GoMap.set {α : Type} : GoMap α → String → α → GoMap α
  | [], k, v => [(k, v)]
  | (k', v') :: m, k, v => if k' = k then (k, v) :: m else (k', v') :: GoMap.set m k v

/-- The lookup `v, ok := m[k]`. -/
def GoMap.get {α : Type} : GoMap α → String → Option α
  | [], _ => none
  | (k', v') :: m, k => if k' = k then some v' else GoMap.get m k

/-! ## The remote API and the client -/

/-- The part of `apiclient`'s response the code reads: `IsSuccess()`, `GetCode()`,
`GetDescription()` and, per record of `GetRecords()`, its `GetData()` map. -/
structure Response where
  IsSuccess : Bool
  Code : Int
  Description : String
  Records : List (GoMap String)
deriving DecidableEq, Repr

/-- The remote API seen from the client: a login and a request, both changing the remote
state. -/
structure Remote (σ : Type) where
  Login : σ → Response × σ
  Request : GoMap String → σ → Response × σ

/-- The method of `client` (or `newClient`) that sends a request. -/
inductive Method where
  | newClient
  | getDNSEntries
  | addDNSEntry
  | removeDNSEntry
deriving DecidableEq, Repr

/-- One call of the remote API: who sent it, the command map, the response. -/
structure Event where
  method : Method
  cmd : GoMap String
  resp : Response
deriving DecidableEq, Repr

/-- The state a `Provider` call runs in: the remote state, whether `p.c` is set, and the
calls of the remote API made so far. -/
structure World (σ : Type) where
  remote : σ
  c : Bool
  trace : List Event

/-- The call `c.client.Request(cmd)`, recorded in the trace. -/
def request {σ : Type} (R : Remote σ) (m : Method) (cmd : GoMap String) (w : World σ) :
    Response × World σ :=
  ((R.Request cmd w.remote).1,
   { remote := (R.Request cmd w.remote).2, c := w.c,
     trace := w.trace ++ [⟨m, cmd, (R.Request cmd w.remote).1⟩] })

/-- The message of `fmt.Errorf("<fn> failed, response code:%d description:%s\n", ...)`. -/
def errorf (fn : String) (resp : Response) : String :=
  fn ++ " failed, response code:" ++ fmtInt resp.Code ++ " description:" ++
    resp.Description ++ "\n"

/-- The result of a Go function returning `([]libdns.Record, error)`, or a panic. -/
abbrev Result := Except Abort (List Record × Option String)

/-- The loop of `getDNSEntries` over `resp.GetRecords()`. A key absent from `GetData()`
reads as the empty string. -/
def decodeRecords : List (GoMap String) → Except Abort (List Record)
  | [] => .ok []
  | data :: rest =>
    match recordOfRR ((GoMap.get data "RR").getD "") with
    | .error a => .error a
    | .ok r =>
      match decodeRecords rest with
      | .error a => .error a
      | .ok rs => .ok (r :: rs)

/-- The command map of `getDNSEntries`. -/
def listCmd (zone : String) : GoMap String :=
  [("COMMAND", "QueryDNSZoneRRList"), ("dnszone", zone)]

/-- The method `client.getDNSEntries`. -/
def client.getDNSEntries {σ : Type} (R : Remote σ) (zone : String) (w : World σ) :
    Result × World σ :=
  let r := request R .getDNSEntries (listCmd zone) w
  if r.1.IsSuccess = false then (.ok ([], some (errorf "getDNSEntries" r.1)), r.2)
  else
    match decodeRecords r.1.Records with
    | .error a => (.error a, r.2)
    | .ok recs => (.ok (recs, none), r.2)

/-- The loop `for i := range records { cmd[Sprintf(pfx+"%d", i)] = Sprintf(...) }` of
`addDNSEntry` (`pfx = "addrr"`) and `removeDNSEntry` (`pfx = "delrr"`), from index `i`. -/
def rrParams (D : Deps) (pfx : String) : List Record → Nat → GoMap String → GoMap String
  | [], _, cmd => cmd
  | r :: rs, i, cmd => rrParams D pfx rs (i + 1) (GoMap.set cmd (pfx ++ fmtInt i) (formatRR D r))

/-- The command map of `addDNSEntry` / `removeDNSEntry`. -/
def updateCmd (D : Deps) (pfx : String) (zone : String) (records : List Record) :
    GoMap String :=
  rrParams D pfx records 0 [("COMMAND", "UpdateDNSZone"), ("dnszone", zone)]

/-- The method `client.addDNSEntry`. -/
def client.addDNSEntry {σ : Type} (D : Deps) (R : Remote σ) (zone : String)
    (records : List Record) (w : World σ) : Option String × World σ :=
  let r := request R .addDNSEntry (updateCmd D "addrr" zone records) w
  if r.1.IsSuccess = false then (some (errorf "addDNSEntry" r.1), r.2) else (none, r.2)

/-- The method `client.removeDNSEntry`. -/
def client.removeDNSEntry {σ : Type} (D : Deps) (R : Remote σ) (zone : String)
    (records : List Record) (w : World σ) : Option String × World σ :=
  let r := request R .removeDNSEntry (updateCmd D "delrr" zone records) w
  if r.1.IsSuccess = false then (some (errorf "removeDNSEntry" r.1), r.2) else (none, r.2)

/-- The method `Provider.client` with `newClient`: log in once, keep the client. -/
def Provider.client {σ : Type} (R : Remote σ) (w : World σ) : Option String × World σ :=
  if w.c then (none, w)
  else
    let r := R.Login w.remote
    let ev : Event := ⟨.newClient, [], r.1⟩
    if r.1.IsSuccess = false then
      (some ("login failed, response code:" ++ fmtInt r.1.Code ++ " description:" ++
          r.1.Description ++ "\n"),
       { remote := r.2, c := false, trace := w.trace ++ [ev] })
    else (none, { remote := r.2, c := true, trace := w.trace ++ [ev] })

/-! ## The provider -/

/-- What `Provider` calls on its client, over a state `σ`. -/
structure ClientOps (σ : Type) where
  client : σ → Option String × σ
  getDNSEntries : String → σ → Result × σ
  removeDNSEntry : String → List Record → σ → Option String × σ
  addDNSEntry : String → List Record → σ → Option String × σ

/-- The client of `client.go` talking to the remote API `R`. -/
def hexonetClient {σ : Type} (D : Deps) (R : Remote σ) : ClientOps (World σ) where
  client := Provider.client R
  getDNSEntries := client.getDNSEntries R
  removeDNSEntry := client.removeDNSEntry D R
  addDNSEntry := client.addDNSEntry D R

/-- The key `Type + ":" + Value` of `SetRecords`. -/
def recordKey (r : Record) : String := r.Typ ++ ":" ++ r.Value

/-- The first loop of `SetRecords`: `visited[key] = alls[i]`, from the map `visited`. -/
def visitAll : List Record → GoMap Record → GoMap Record
  | [], visited => visited
  | a :: alls, visited => visitAll alls (GoMap.set visited (recordKey a) a)

/-- The second loop of `SetRecords`, from the lists `adds` and `dels` built so far;
returns `(adds, dels)`. -/
def schedule (visited : GoMap Record) :
    List Record → List Record × List Record → List Record × List Record
  | [], acc => acc
  | r :: records, (adds, dels) =>
    match GoMap.get visited (recordKey r) with
    | none => schedule visited records (adds ++ [r], dels)
    | some old => schedule visited records (adds ++ [r], dels ++ [old])

/-- The lists `(adds, dels)` of `SetRecords` for the current records `alls` and the desired
`records`. -/
def diffRecords (alls records : List Record) : List Record × List Record :=
  schedule (visitAll alls []) records ([], [])

/-- The method `Provider.GetRecords`. -/
def GetRecords {σ : Type} (C : ClientOps σ) (zone : String) (s : σ) : Result × σ :=
  match C.client s with
  | (some err, s1) => (.ok ([], some err), s1)
  | (none, s1) =>
    match C.getDNSEntries zone s1 with
    | (.error a, s2) => (.error a, s2)
    | (.ok (recs, _), s2) => (.ok (recs, none), s2)

/-- The method `Provider.SetRecords`. -/
def SetRecords {σ : Type} (C : ClientOps σ) (zone : String) (records : List Record) (s : σ) :
    Result × σ :=
  match C.client s with
  | (some err, s1) => (.ok ([], some err), s1)
  | (none, s1) =>
    match C.getDNSEntries zone s1 with
    | (.error a, s2) => (.error a, s2)
    | (.ok (_, some err), s2) => (.ok ([], some err), s2)
    | (.ok (alls, none), s2) =>
      match C.removeDNSEntry zone (diffRecords alls records).2 s2 with
      | (some err, s3) => (.ok ([], some err), s3)
      | (none, s3) =>
        match C.addDNSEntry zone (diffRecords alls records).1 s3 with
        | (some err, s4) => (.ok ([], some err), s4)
        | (none, s4) => (.ok (records, none), s4)

/-- The events a call added to the trace. -/
def newEvents {σ : Type} (w w' : World σ) : List Event := w'.trace.drop w.trace.length

/-- The last record of `alls` whose key is `k`. -/
def lastWithKey (alls : List Record) (k : String) : Option Record :=
  alls.reverse.find? (fun a => recordKey a = k)

/-- What it means for a text to match a sequence of pieces, anchored at both ends. -/
def Matches : List Tok → List Char → Prop
  | [], s => s = []
  | .lit c :: ts, s => ∃ s', s = c :: s' ∧ Matches ts s'
  | .plus cls :: ts, s =>
    ∃ a b, s = a ++ b ∧ a ≠ [] ∧ (∀ x ∈ a, cls x = true) ∧ Matches ts b

/-- A piece and the text it matched. -/
def PieceOK : Tok → List Char → Prop
  | .lit c, p => p = [c]
  | .plus cls, p => p ≠ [] ∧ ∀ x ∈ p, cls x = true

/-! ## Definitions used to state the claims -/

/-- The parameters `rrParams` adds, as entries, from index `i0`. -/
def rrEntries (D : Deps) (pfx : String) (rs : List Record) (i0 : Nat) : GoMap String :=
  (rs.enumFrom i0).map (fun p => (pfx ++ fmtInt (p.1 : Int), formatRR D p.2))

/-- What claim C9 says of a command map `cmd` built for `records` with key prefix `pfx`:
the two fixed parameters, one parameter per record under the key `pfx` followed by the
decimal index, holding the record's line, and nothing else. -/
def CommandMapSpec (D : Deps) (pfx zone : String) (records : List Record)
    (cmd : GoMap String) : Prop :=
  GoMap.get cmd "COMMAND" = some "UpdateDNSZone" ∧
  GoMap.get cmd "dnszone" = some zone ∧
  (∀ (i : Nat) (hi : i < records.length),
    GoMap.get cmd (pfx ++ fmtInt (i : Int))
      = some ((records.get ⟨i, hi⟩).Name ++ " " ++
          fmtInt (D.seconds (records.get ⟨i, hi⟩).TTL) ++ " IN " ++
          (records.get ⟨i, hi⟩).Typ ++ " " ++ TXTSanitize D (records.get ⟨i, hi⟩))) ∧
  (∀ (i : Nat) (hi : i < records.length), (records.get ⟨i, hi⟩).Typ ≠ "TXT" →
    GoMap.get cmd (pfx ++ fmtInt (i : Int))
      = some ((records.get ⟨i, hi⟩).Name ++ " " ++
          fmtInt (D.seconds (records.get ⟨i, hi⟩).TTL) ++ " IN " ++
          (records.get ⟨i, hi⟩).Typ ++ " " ++ (records.get ⟨i, hi⟩).Value)) ∧
  (∀ k v, (k, v) ∈ cmd →
    k = "COMMAND" ∨ k = "dnszone" ∨ ∃ i, i < records.length ∧ k = pfx ++ fmtInt (i : Int)) ∧
  (cmd.map Prod.fst).Nodup ∧
  cmd.length = records.length + 2

/-- The check that no text after a dot of `v` reads as the rest of a record line. -/
def noRecordTail (v : List Char) : Bool :=
  v.tails.all (fun t =>
    match t with
    | '.' :: q => (matchToks rrTail q).isNone
    | _ => true)

/-- The lines a command map lists under the keys `pfx0`, `pfx1`, ...: they are read in
turn from index `i` until a key is absent; `fuel` bounds the reads. -/
def listedFrom (pfx : String) (cmd : GoMap String) : Nat → Nat → List String
  | 0, _ => []
  | fuel + 1, i =>
    match GoMap.get cmd (pfx ++ fmtInt (i : Int)) with
    | none => []
    | some l => l :: listedFrom pfx cmd fuel (i + 1)

/-- The lines a command map lists under the keys `pfx0`, `pfx1`, ... -/
def listed (pfx : String) (cmd : GoMap String) : List String :=
  listedFrom pfx cmd cmd.length 0

/-- The remote API `R` keeps the zone as a collection of record lines, `lines s` in the
state `s`, whatever their order: the login is accepted; the list command succeeds and
returns the lines of the zone; an `UpdateDNSZone` command succeeds, deletes the lines
listed under `delrr<i>` and inserts the lines listed under `addrr<i>`. -/
def ZoneRemote {σ : Type} (R : Remote σ) (zone : String) (lines : σ → List String) : Prop :=
  (∀ s, (R.Login s).1.IsSuccess = true ∧ ∀ l, l ∈ lines (R.Login s).2 ↔ l ∈ lines s) ∧
  (∀ s, (R.Request (listCmd zone) s).1.IsSuccess = true ∧
    (∀ l, l ∈ (R.Request (listCmd zone) s).1.Records.map
        (fun d => (GoMap.get d "RR").getD "") ↔ l ∈ lines s) ∧
    (∀ l, l ∈ lines (R.Request (listCmd zone) s).2 ↔ l ∈ lines s)) ∧
  (∀ s cmd, GoMap.get cmd "COMMAND" = some "UpdateDNSZone" →
    (R.Request cmd s).1.IsSuccess = true ∧
    ∀ l, l ∈ lines (R.Request cmd s).2
      ↔ (l ∈ lines s ∧ l ∉ listed "delrr" cmd) ∨ l ∈ listed "addrr" cmd)

/-- A line of the zone is the line the adapter formats for the record it decodes to. -/
def Canonical (D : Deps) (l : String) : Prop :=
  ∃ r, recordOfRR l = .ok r ∧ formatRR D r = l

/-- The (Type, Value) pairs present in a zone of lines, as `getDNSEntries` decodes them. -/
def zonePairs (lines : List String) : List (String × String) :=
  lines.filterMap (fun l =>
    match recordOfRR l with
    | .ok r => some (r.Typ, r.Value)
    | .error _ => none)

/-! ## Worlds used as examples -/

/-- External functions for the examples: a TXT sanitizer that changes nothing, and the
seconds of a duration by truncating division (exact on whole seconds). -/
def exampleDeps : Deps where
  TXTSanitize := fun v => v
  seconds := fun d => Int.tdiv d 1000000000

/-- A remote API for the examples: it accepts the login, answers the list command with
the lines `rrs`, and answers every other command with `upd`. Its state counts the
requests. -/
def exampleRemote (rrs : List String) (upd : Response) : Remote Nat where
  Login := fun s => (⟨true, 200, "Command completed successfully", []⟩, s)
  Request := fun cmd s =>
    if GoMap.get cmd "COMMAND" = some "QueryDNSZoneRRList" then
      (⟨true, 200, "Command completed successfully", rrs.map (fun rr => [("RR", rr)])⟩, s + 1)
    else (upd, s + 1)

/-- A remote API that refuses the list command with code 505. -/
def refusingRemote : Remote Nat where
  Login := fun s => (⟨true, 200, "Command completed successfully", []⟩, s)
  Request := fun _ s => (⟨false, 505, "Object does not exist", []⟩, s + 1)

/-- Current records for the examples: an A and an MX record. -/
def exampleCurrent : List Record :=
  [⟨"A", "acme.com.", "1.2.3.4", 300 * Second⟩,
   ⟨"MX", "acme.com.", "10 mail.acme.com.", 300 * Second⟩]

/-- Desired records for the examples: the A record with another TTL, and a CNAME record. -/
def exampleDesired : List Record :=
  [⟨"A", "acme.com.", "1.2.3.4", 600 * Second⟩,
   ⟨"CNAME", "www.acme.com.", "acme.com.", 600 * Second⟩]

/-- A remote API that is a zone of lines, its state the list of the lines: the list
command returns them in order; an `UpdateDNSZone` command deletes the lines listed under
`delrr<i>` and inserts the lines listed under `addrr<i>`, before the others when `front`
is set and after them otherwise. -/
def lineStore (front : Bool) : Remote (List String) where
  Login := fun z => (⟨true, 200, "Command completed successfully", []⟩, z)
  Request := fun cmd z =>
    if GoMap.get cmd "COMMAND" = some "QueryDNSZoneRRList" then
      (⟨true, 200, "Command completed successfully", z.map (fun l => [("RR", l)])⟩, z)
    else if GoMap.get cmd "COMMAND" = some "UpdateDNSZone" then
      (⟨true, 200, "Command completed successfully", []⟩,
       if front then
         listed "addrr" cmd ++ z.filter (fun l => decide (l ∉ listed "delrr" cmd))
       else z.filter (fun l => decide (l ∉ listed "delrr" cmd)) ++ listed "addrr" cmd)
    else (⟨false, 500, "Invalid command name", []⟩, z)

/-- The world before the first call: no client yet, nothing sent. -/
def freshWorld : World Nat := ⟨0, false, []⟩

/-! ## Lemmas on Go maps -/

theorem GoMap.get_set {α : Type} (m : GoMap α) (k k' : String) (v : α) :
    GoMap.get (GoMap.set m k v) k' = if k = k' then some v else GoMap.get m k' := by
  induction m with
  | nil => simp [GoMap.set, GoMap.get]
  | cons e m ih =>
    obtain ⟨k1, v1⟩ := e
    by_cases h1 : k1 = k
    · by_cases h2 : k = k'
      · simp [GoMap.set, GoMap.get, h1, h2]
      · have h3 : ¬ k1 = k' := by rw [h1]; exact h2
        simp [GoMap.set, GoMap.get, h1, h2]
    · by_cases h2 : k = k'
      · subst h2
        simp [GoMap.set, GoMap.get, h1, ih]
      · simp [GoMap.set, GoMap.get, h1, ih, h2]

theorem GoMap.get_visitAll (alls : List Record) (visited : GoMap Record) (k : String) :
    GoMap.get (visitAll alls visited) k
      = (lastWithKey alls k).or (GoMap.get visited k) := by
  induction alls generalizing visited with
  | nil => simp [visitAll, lastWithKey]
  | cons a alls ih =>
    rw [visitAll, ih, GoMap.get_set]
    unfold lastWithKey
    rw [List.reverse_cons, List.find?_append]
    cases h : List.find? (fun a => decide (recordKey a = k)) alls.reverse with
    | some x => simp
    | none =>
      by_cases hk : recordKey a = k
      · simp [hk]
      · simp [hk]

theorem schedule_eq (visited : GoMap Record) (records adds dels : List Record) :
    schedule visited records (adds, dels)
      = (adds ++ records,
         dels ++ records.filterMap (fun r => GoMap.get visited (recordKey r))) := by
  induction records generalizing adds dels with
  | nil => simp [schedule]
  | cons r records ih =>
    cases h : GoMap.get visited (recordKey r) with
    | none => simp [schedule, h, ih, List.filterMap_cons]
    | some old => simp [schedule, h, ih, List.filterMap_cons]

theorem diffRecords_eq (alls records : List Record) :
    diffRecords alls records
      = (records, records.filterMap (fun r => lastWithKey alls (recordKey r))) := by
  unfold diffRecords
  rw [schedule_eq]
  simp [GoMap.get_visitAll, GoMap.get]

/-- Two keys `t ++ ":" ++ v` with no colon in either `t` agree only for equal parts. -/
theorem append_sep_inj {c : Char} :
    ∀ (a a' b b' : List Char), c ∉ a → c ∉ a' → a ++ c :: b = a' ++ c :: b' →
      a = a' ∧ b = b'
  | [], [], b, b', _, _, h => by simpa using h
  | [], x :: a', b, b', _, h2, h => by
    simp only [List.nil_append, List.cons_append, List.cons.injEq] at h
    exact absurd (by simp [h.1]) h2
  | x :: a, [], b, b', h1, _, h => by
    simp only [List.nil_append, List.cons_append, List.cons.injEq] at h
    exact absurd (by simp [h.1]) h1
  | x :: a, y :: a', b, b', h1, h2, h => by
    simp only [List.cons_append, List.cons.injEq] at h
    have ih := append_sep_inj a a' b b' (fun hm => h1 (List.mem_cons_of_mem _ hm))
      (fun hm => h2 (List.mem_cons_of_mem _ hm)) h.2
    exact ⟨by rw [h.1, ih.1], ih.2⟩

theorem recordKey_inj (a r : Record) (ha : ':' ∉ a.Typ.data) (hr : ':' ∉ r.Typ.data) :
    recordKey a = recordKey r ↔ a.Typ = r.Typ ∧ a.Value = r.Value := by
  constructor
  · intro h
    have h2 : a.Typ.data ++ ':' :: a.Value.data = r.Typ.data ++ ':' :: r.Value.data := by
      have := congrArg String.data h
      simpa [recordKey, String.data_append] using this
    have h3 := append_sep_inj _ _ _ _ ha hr h2
    exact ⟨String.ext h3.1, String.ext h3.2⟩
  · rintro ⟨h1, h2⟩
    simp [recordKey, h1, h2]

theorem lastWithKey_isSome (alls : List Record) (k : String) :
    (lastWithKey alls k).isSome = true ↔ ∃ a ∈ alls, recordKey a = k := by
  unfold lastWithKey
  rw [List.find?_isSome]
  simp

/-! ## Claims on the scheduling of `SetRecords` -/

/-- Claim C4. The additions of `SetRecords` are the desired records in order; the removals
are, in desired order, for each desired record whose key `Type + ":" + Value` is the key of
a current record, the last current record with that key. These are the lists `SetRecords`
passes to `removeDNSEntry` and then to `addDNSEntry`, whatever the client. On the scenario
of the spec (same type and value, TTL 300 against 600) that is one removal, the old
record, and one addition, the new one. -/
theorem C4_SetRecords_diff (alls records : List Record) :
    (diffRecords alls records).1 = records ∧
    (diffRecords alls records).2
      = records.filterMap (fun r => lastWithKey alls (recordKey r)) ∧
    (∀ r ∈ records, (lastWithKey alls (recordKey r)).isSome = true
        ↔ ∃ a ∈ alls, recordKey a = recordKey r) ∧
    (∀ (σ : Type) (C : ClientOps σ) (zone : String) (s s1 s2 : σ),
      C.client s = (none, s1) → C.getDNSEntries zone s1 = (.ok (alls, none), s2) →
      SetRecords C zone records s
        = match C.removeDNSEntry zone
            (records.filterMap (fun r => lastWithKey alls (recordKey r))) s2 with
          | (some err, s3) => (.ok ([], some err), s3)
          | (none, s3) =>
            match C.addDNSEntry zone records s3 with
            | (some err, s4) => (.ok ([], some err), s4)
            | (none, s4) => (.ok (records, none), s4)) ∧
    diffRecords [⟨"A", "acme.com.", "1.2.3.4", 300 * Second⟩]
        [⟨"A", "acme.com.", "1.2.3.4", 600 * Second⟩]
      = ([⟨"A", "acme.com.", "1.2.3.4", 600 * Second⟩],
         [⟨"A", "acme.com.", "1.2.3.4", 300 * Second⟩]) := by
  refine ⟨by rw [diffRecords_eq], by rw [diffRecords_eq], ?_, ?_, by decide⟩
  · intro r _
    exact lastWithKey_isSome alls (recordKey r)
  · intro σ C zone s s1 s2 h1 h2
    simp only [SetRecords, h1, h2, diffRecords_eq]

/-- Claim C5, refuted as stated: with a type holding a colon, a desired record that shares
type and value with no current record still schedules a removal. -/
theorem C5_counterexample :
    (∀ r ∈ [(⟨"A:b", "acme.com.", "c", 600 * Second⟩ : Record)],
      ∀ a ∈ [(⟨"A", "acme.com.", "b:c", 300 * Second⟩ : Record)],
        ¬ (a.Typ = r.Typ ∧ a.Value = r.Value)) ∧
    (diffRecords [⟨"A", "acme.com.", "b:c", 300 * Second⟩]
        [⟨"A:b", "acme.com.", "c", 600 * Second⟩]).2
      = [⟨"A", "acme.com.", "b:c", 300 * Second⟩] := by
  decide

theorem find?_congr_mem {α : Type} (l : List α) (p q : α → Bool)
    (h : ∀ a ∈ l, p a = q a) : l.find? p = l.find? q := by
  induction l with
  | nil => rfl
  | cons x xs ih =>
    have hx := h x (List.mem_cons_self _ _)
    have ih2 := ih (fun a ha => h a (List.mem_cons_of_mem _ ha))
    simp only [List.find?_cons, hx, ih2]

theorem length_filterMap_eq_filter {α β : Type} (l : List α) (f : α → Option β)
    (q : α → Bool) (h : ∀ a ∈ l, (f a).isSome = q a) :
    (l.filterMap f).length = (l.filter q).length := by
  induction l with
  | nil => rfl
  | cons x xs ih =>
    have hx := h x (List.mem_cons_self _ _)
    have ih2 := ih (fun a ha => h a (List.mem_cons_of_mem _ ha))
    cases hf : f x with
    | none =>
      rw [hf] at hx
      have hq : q x = false := by simpa using hx.symm
      simp [List.filterMap_cons, hf, List.filter_cons, hq, ih2]
    | some y =>
      rw [hf] at hx
      have hq : q x = true := by simpa using hx.symm
      simp [List.filterMap_cons, hf, List.filter_cons, hq, ih2]

/-- With colon-free types the removals are, per desired record, the last current record
with its type and its value. -/
theorem diffRecords_dels (alls records : List Record)
    (hA : ∀ a ∈ alls, ':' ∉ a.Typ.data) (hR : ∀ r ∈ records, ':' ∉ r.Typ.data) :
    (diffRecords alls records).2
      = records.filterMap (fun r =>
          alls.reverse.find? (fun a => decide (a.Typ = r.Typ ∧ a.Value = r.Value))) := by
  rw [diffRecords_eq]
  apply List.filterMap_congr
  intro r hr
  unfold lastWithKey
  apply find?_congr_mem
  intro a ha
  have := recordKey_inj a r (hA a (List.mem_reverse.1 ha)) (hR r hr)
  simp only [this]

/-- Claim C5, amended: when no type holds a colon, the removal list of `SetRecords` holds,
in desired order, one record for each desired record that shares its type and its value
with a current record (the last such current record) and nothing for the other desired
records: a desired record causes a removal exactly when a current record has its type and
its value. A desired list sharing no (type, value) with the current records schedules no
removal and all its records, in order, for addition. -/
theorem C5_SetRecords_identity (alls records : List Record)
    (hA : ∀ a ∈ alls, ':' ∉ a.Typ.data) (hR : ∀ r ∈ records, ':' ∉ r.Typ.data) :
    (diffRecords alls records).1 = records ∧
    (diffRecords alls records).2
      = records.filterMap (fun r =>
          alls.reverse.find? (fun a => decide (a.Typ = r.Typ ∧ a.Value = r.Value))) ∧
    (∀ pre r post, records = pre ++ r :: post →
      ((∃ a ∈ alls, a.Typ = r.Typ ∧ a.Value = r.Value) →
        ∃ old ∈ alls, old.Typ = r.Typ ∧ old.Value = r.Value ∧
          (diffRecords alls records).2
            = (diffRecords alls pre).2 ++ old :: (diffRecords alls post).2) ∧
      ((¬ ∃ a ∈ alls, a.Typ = r.Typ ∧ a.Value = r.Value) →
        (diffRecords alls records).2
          = (diffRecords alls pre).2 ++ (diffRecords alls post).2)) ∧
    (diffRecords alls records).2.length
      = (records.filter (fun r =>
          decide (∃ a ∈ alls, a.Typ = r.Typ ∧ a.Value = r.Value))).length ∧
    (∀ r ∈ records, (GoMap.get (visitAll alls []) (recordKey r)).isSome = true
        ↔ ∃ a ∈ alls, a.Typ = r.Typ ∧ a.Value = r.Value) ∧
    ((∀ r ∈ records, ∀ a ∈ alls, ¬ (a.Typ = r.Typ ∧ a.Value = r.Value)) →
        diffRecords alls records = (records, [])) := by
  have hsome : ∀ r : Record,
      (alls.reverse.find? (fun a => decide (a.Typ = r.Typ ∧ a.Value = r.Value))).isSome = true
        ↔ ∃ a ∈ alls, a.Typ = r.Typ ∧ a.Value = r.Value := by
    intro r
    rw [List.find?_isSome]
    simp
  have key : ∀ r ∈ records, (lastWithKey alls (recordKey r)).isSome = true
      ↔ ∃ a ∈ alls, a.Typ = r.Typ ∧ a.Value = r.Value := by
    intro r hr
    rw [lastWithKey_isSome]
    constructor
    · rintro ⟨a, ha, h⟩
      exact ⟨a, ha, (recordKey_inj a r (hA a ha) (hR r hr)).1 h⟩
    · rintro ⟨a, ha, h⟩
      exact ⟨a, ha, (recordKey_inj a r (hA a ha) (hR r hr)).2 h⟩
  refine ⟨by rw [diffRecords_eq], diffRecords_dels alls records hA hR, ?_, ?_, ?_, ?_⟩
  · intro pre r post hsplit
    have hpre : ∀ x ∈ pre, ':' ∉ x.Typ.data := fun x hx =>
      hR x (by rw [hsplit]; exact List.mem_append_left _ hx)
    have hpost : ∀ x ∈ post, ':' ∉ x.Typ.data := fun x hx =>
      hR x (by rw [hsplit]; exact List.mem_append_right _ (List.mem_cons_of_mem _ hx))
    rw [diffRecords_dels alls records hA hR, diffRecords_dels alls pre hA hpre,
      diffRecords_dels alls post hA hpost, hsplit, List.filterMap_append, List.filterMap_cons]
    constructor
    · intro hex
      obtain ⟨old, hold⟩ := Option.isSome_iff_exists.1 ((hsome r).2 hex)
      have hp := List.find?_some hold
      simp only [decide_eq_true_eq] at hp
      refine ⟨old, List.mem_reverse.1 (List.mem_of_find?_eq_some hold), hp.1, hp.2, ?_⟩
      rw [hold]
    · intro hno
      have hnone : alls.reverse.find?
          (fun a => decide (a.Typ = r.Typ ∧ a.Value = r.Value)) = none := by
        cases hf : alls.reverse.find?
            (fun a => decide (a.Typ = r.Typ ∧ a.Value = r.Value)) with
        | none => rfl
        | some x => exact absurd ((hsome r).1 (by rw [hf]; rfl)) hno
      rw [hnone]
  · rw [diffRecords_dels alls records hA hR]
    apply length_filterMap_eq_filter
    intro r _
    by_cases hex : ∃ a ∈ alls, a.Typ = r.Typ ∧ a.Value = r.Value
    · rw [(hsome r).2 hex]
      exact (decide_eq_true hex).symm
    · have : (alls.reverse.find?
          (fun a => decide (a.Typ = r.Typ ∧ a.Value = r.Value))).isSome = false := by
        cases hs : (alls.reverse.find?
            (fun a => decide (a.Typ = r.Typ ∧ a.Value = r.Value))).isSome with
        | false => rfl
        | true => exact absurd ((hsome r).1 hs) hex
      rw [this]
      exact (decide_eq_false hex).symm
  · intro r hr
    rw [GoMap.get_visitAll]
    simpa [GoMap.get] using key r hr
  · intro hdis
    rw [diffRecords_eq]
    congr 1
    rw [List.filterMap_eq_nil_iff]
    intro r hr
    have h := key r hr
    cases hl : lastWithKey alls (recordKey r) with
    | none => rfl
    | some x =>
      rw [hl] at h
      obtain ⟨a, ha, hh⟩ := h.1 rfl
      exact absurd hh (hdis r hr a ha)

/-- Witness of `C5_SetRecords_identity`: an A record that is current with another TTL and
a CNAME record that is not, against a current A and a current MX record; one removal. -/
theorem C5_SetRecords_identity_witness :
    (diffRecords exampleCurrent exampleDesired).1 = exampleDesired ∧
    (diffRecords exampleCurrent exampleDesired).2
      = exampleDesired.filterMap (fun r =>
          exampleCurrent.reverse.find?
            (fun a => decide (a.Typ = r.Typ ∧ a.Value = r.Value))) ∧
    (∀ pre r post, exampleDesired = pre ++ r :: post →
      ((∃ a ∈ exampleCurrent, a.Typ = r.Typ ∧ a.Value = r.Value) →
        ∃ old ∈ exampleCurrent, old.Typ = r.Typ ∧ old.Value = r.Value ∧
          (diffRecords exampleCurrent exampleDesired).2
            = (diffRecords exampleCurrent pre).2 ++ old :: (diffRecords exampleCurrent post).2) ∧
      ((¬ ∃ a ∈ exampleCurrent, a.Typ = r.Typ ∧ a.Value = r.Value) →
        (diffRecords exampleCurrent exampleDesired).2
          = (diffRecords exampleCurrent pre).2 ++ (diffRecords exampleCurrent post).2)) ∧
    (diffRecords exampleCurrent exampleDesired).2.length
      = (exampleDesired.filter (fun r =>
          decide (∃ a ∈ exampleCurrent, a.Typ = r.Typ ∧ a.Value = r.Value))).length ∧
    (∀ r ∈ exampleDesired,
        (GoMap.get (visitAll exampleCurrent []) (recordKey r)).isSome = true
        ↔ ∃ a ∈ exampleCurrent, a.Typ = r.Typ ∧ a.Value = r.Value) ∧
    ((∀ r ∈ exampleDesired, ∀ a ∈ exampleCurrent, ¬ (a.Typ = r.Typ ∧ a.Value = r.Value)) →
        diffRecords exampleCurrent exampleDesired = (exampleDesired, [])) :=
  C5_SetRecords_identity exampleCurrent exampleDesired (by decide) (by decide)

/-! ## The language of the pattern, and the matcher against it -/

theorem tryPlus_eq_none_iff (cont : List Char → Option (List (List Char))) (s : List Char)
    (K : Nat) :
    tryPlus cont s K = none ↔ ∀ k, 1 ≤ k → k ≤ K → cont (s.drop k) = none := by
  induction K with
  | zero =>
    simp only [tryPlus, true_iff]
    intro k h1 h2
    omega
  | succ K ih =>
    simp only [tryPlus]
    cases h : cont (List.drop (K + 1) s) with
    | some ps =>
      constructor
      · intro h0
        cases h0
      · intro hk
        have := hk (K + 1) (by omega) (le_refl _)
        rw [h] at this
        cases this
    | none =>
      simp only [ih]
      constructor
      · intro hk k h1 h2
        by_cases hkK : k = K + 1
        · rw [hkK]; exact h
        · exact hk k h1 (by omega)
      · intro hk k h1 h2
        exact hk k h1 (by omega)

theorem tryPlus_eq_some (cont : List Char → Option (List (List Char))) (s : List Char)
    (K : Nat) (r : List (List Char)) (h : tryPlus cont s K = some r) :
    ∃ k ps, 1 ≤ k ∧ k ≤ K ∧ cont (s.drop k) = some ps ∧ r = s.take k :: ps := by
  induction K with
  | zero => simp [tryPlus] at h
  | succ K ih =>
    simp only [tryPlus] at h
    cases hc : cont (List.drop (K + 1) s) with
    | some ps =>
      rw [hc] at h
      exact ⟨K + 1, ps, by omega, le_refl _, hc, by simpa using h.symm⟩
    | none =>
      rw [hc] at h
      obtain ⟨k, ps, h1, h2, h3, h4⟩ := ih h
      exact ⟨k, ps, h1, by omega, h3, h4⟩

/-- The greedy choice: the longest length for which the rest matches. -/
theorem tryPlus_greedy (cont : List Char → Option (List (List Char))) (s : List Char)
    (K k : Nat) (ps : List (List Char)) (h1 : 1 ≤ k) (h2 : k ≤ K)
    (hk : cont (s.drop k) = some ps)
    (hlong : ∀ j, k < j → j ≤ K → cont (s.drop j) = none) :
    tryPlus cont s K = some (s.take k :: ps) := by
  induction K with
  | zero => omega
  | succ K ih =>
    simp only [tryPlus]
    by_cases hkK : k = K + 1
    · subst hkK
      rw [hk]
    · rw [hlong (K + 1) (by omega) (le_refl _)]
      exact ih (by omega) (fun j hj1 hj2 => hlong j hj1 (by omega))

theorem take_subset_takeWhile (cls : Char → Bool) (s : List Char) (k : Nat)
    (hk : k ≤ (s.takeWhile cls).length) : ∀ x ∈ s.take k, cls x = true := by
  induction s generalizing k with
  | nil => simp
  | cons c s ih =>
    cases k with
    | zero => simp
    | succ k =>
      by_cases hc : cls c = true
      · simp only [List.takeWhile_cons, hc, if_true, List.length_cons] at hk
        intro x hx
        simp only [List.take_succ_cons, List.mem_cons] at hx
        rcases hx with hx | hx
        · rw [hx]; exact hc
        · exact ih k (by omega) x hx
      · simp [List.takeWhile_cons, hc] at hk

theorem length_le_takeWhile (cls : Char → Bool) (a b : List Char)
    (ha : ∀ x ∈ a, cls x = true) : a.length ≤ ((a ++ b).takeWhile cls).length := by
  induction a with
  | nil => simp
  | cons c a ih =>
    have hc : cls c = true := ha c (List.mem_cons_self _ _)
    simp only [List.cons_append, List.takeWhile_cons, hc, if_true, List.length_cons]
    have := ih (fun x hx => ha x (List.mem_cons_of_mem _ hx))
    omega

/-- The matcher is sound: the pieces it returns fit the pattern and spell the input. -/
theorem matchToks_sound : ∀ (ts : List Tok) (s : List Char) (ps : List (List Char)),
    matchToks ts s = some ps → List.Forall₂ PieceOK ts ps ∧ s = ps.flatten
  | [], s, ps, h => by
    cases s with
    | nil =>
      simp only [matchToks, List.isEmpty_nil, if_true, Option.some.injEq] at h
      subst h
      exact ⟨List.Forall₂.nil, rfl⟩
    | cons c s => simp [matchToks] at h
  | .lit c :: ts, s, ps, h => by
    cases s with
    | nil => simp [matchToks] at h
    | cons x xs =>
      simp only [matchToks] at h
      by_cases hx : x = c
      · subst hx
        simp only [if_true, Option.map_eq_some'] at h
        obtain ⟨qs, hq, rfl⟩ := h
        obtain ⟨h1, h2⟩ := matchToks_sound ts xs qs hq
        exact ⟨List.Forall₂.cons rfl h1, by simp [h2]⟩
      · simp [hx] at h
  | .plus cls :: ts, s, ps, h => by
    simp only [matchToks] at h
    obtain ⟨k, qs, h1, h2, h3, rfl⟩ := tryPlus_eq_some _ _ _ _ h
    obtain ⟨h4, h5⟩ := matchToks_sound ts (s.drop k) qs h3
    refine ⟨List.Forall₂.cons ⟨?_, take_subset_takeWhile cls s k h2⟩ h4, ?_⟩
    · intro h0
      have hlen : k ≤ s.length := le_trans h2 (List.takeWhile_sublist cls).length_le
      have := congrArg List.length h0
      simp only [List.length_take, List.length_nil] at this
      omega
    · rw [List.flatten_cons, ← h5, List.take_append_drop]

theorem matchToks_matches : ∀ (ts : List Tok) (s : List Char),
    (matchToks ts s).isSome = true ↔ Matches ts s
  | [], s => by
    cases s <;> simp [matchToks, Matches]
  | .lit c :: ts, s => by
    cases s with
    | nil => simp [matchToks, Matches]
    | cons x xs =>
      simp only [matchToks, Matches]
      by_cases hx : x = c
      · subst hx
        simp only [if_true, Option.isSome_map']
        rw [matchToks_matches ts xs]
        constructor
        · intro h; exact ⟨xs, rfl, h⟩
        · rintro ⟨s', h1, h⟩
          rw [List.cons.injEq] at h1
          rw [h1.2]; exact h
      · rw [if_neg hx]
        constructor
        · intro h; simp at h
        · rintro ⟨s', h1, _⟩
          rw [List.cons.injEq] at h1
          exact absurd h1.1 hx
  | .plus cls :: ts, s => by
    simp only [matchToks, Matches]
    constructor
    · intro h
      obtain ⟨r, hr⟩ := Option.isSome_iff_exists.1 h
      obtain ⟨k, qs, h1, h2, h3, rfl⟩ := tryPlus_eq_some _ _ _ _ hr
      refine ⟨s.take k, s.drop k, (List.take_append_drop k s).symm, ?_,
        take_subset_takeWhile cls s k h2, (matchToks_matches ts _).1 (by simp [h3])⟩
      intro h0
      have hlen : k ≤ s.length := le_trans h2 (List.takeWhile_sublist cls).length_le
      have := congrArg List.length h0
      simp only [List.length_take, List.length_nil] at this
      omega
    · rintro ⟨a, b, rfl, ha, hcls, hb⟩
      by_contra hnone
      rw [Bool.not_eq_true, Option.not_isSome, Option.isNone_iff_eq_none,
        tryPlus_eq_none_iff] at hnone
      have hpos : 1 ≤ a.length := by
        cases a with
        | nil => exact absurd rfl ha
        | cons c a => simp
      have := hnone a.length hpos (length_le_takeWhile cls a b hcls)
      rw [List.drop_left] at this
      have hb2 := (matchToks_matches ts b).2 hb
      rw [this] at hb2
      exact absurd hb2 (by simp)

theorem matchToks_length (ts : List Tok) (s : List Char) (ps : List (List Char))
    (h : matchToks ts s = some ps) : ps.length = ts.length :=
  ((matchToks_sound ts s ps h).1.length_eq).symm

/-- The call `FindStringSubmatch` returns a match exactly on the texts of the pattern's
language. -/
theorem FindStringSubmatch_isSome (rr : String) :
    (FindStringSubmatch rr).isSome = true ↔ Matches rrPattern rr.data := by
  rw [← matchToks_matches]
  unfold FindStringSubmatch
  cases h : matchToks rrPattern rr.data with
  | none => simp
  | some ps =>
    have hl := matchToks_length _ _ _ h
    simp only [rrPattern, rrTail, List.length_cons, List.length_nil] at hl
    match ps, hl with
    | [_, _, _, _, _, _, _, _, _, _, _], _ => simp

/-! ## Claims on decoding -/

theorem ParseRR_eq_error (rr : String) (h : ¬ Matches rrPattern rr.data) :
    ParseRR rr = .error .indexOutOfRange := by
  have h2 : FindStringSubmatch rr = none := by
    cases hf : FindStringSubmatch rr with
    | none => rfl
    | some g => exact absurd ((FindStringSubmatch_isSome rr).1 (by simp [hf])) h
  simp [ParseRR, h2]

/-- Claim C3 (the code departs from it). A line outside the language of the pattern makes
`ParseRR` panic on the index of the nil match: no error value reaches the caller, and
the loop of `getDNSEntries` panics with it whatever the other lines are. -/
theorem C3_ParseRR_mismatch_aborts (rr : String) (h : ¬ Matches rrPattern rr.data)
    (before after : List (GoMap String)) :
    ParseRR rr = .error .indexOutOfRange ∧
    decodeRecords (before ++ [("RR", rr)] :: after) = .error .indexOutOfRange := by
  refine ⟨ParseRR_eq_error rr h, ?_⟩
  induction before with
  | nil => simp [decodeRecords, GoMap.get, recordOfRR, ParseRR_eq_error rr h]
  | cons d before ih =>
    simp only [List.cons_append, decodeRecords, List.append_eq, ih]
    cases recordOfRR ((GoMap.get d "RR").getD "") with
    | error a => cases a; rfl
    | ok r => rfl

/-- Witness of `C3_ParseRR_mismatch_aborts`: a name without its trailing dot. -/
theorem C3_ParseRR_mismatch_aborts_witness :
    ¬ Matches rrPattern "acme.com 300 IN A 1.2.3.4".data ∧
    ParseRR "acme.com 300 IN A 1.2.3.4" = .error .indexOutOfRange ∧
    decodeRecords ([] ++ [("RR", "acme.com 300 IN A 1.2.3.4")] :: [])
      = .error .indexOutOfRange :=
  ⟨fun h => absurd ((FindStringSubmatch_isSome _).2 h) (by decide),
   C3_ParseRR_mismatch_aborts "acme.com 300 IN A 1.2.3.4"
     (fun h => absurd ((FindStringSubmatch_isSome _).2 h) (by decide)) [] []⟩

theorem digitsValue_isSome (ds : List Char) (h : ∀ x ∈ ds, x.isDigit = true) (acc : Nat) :
    ∃ un, digitsValue ds acc = some un := by
  induction ds generalizing acc with
  | nil => exact ⟨acc, rfl⟩
  | cons c cs ih =>
    have hc : c.isDigit = true := h c (List.mem_cons_self _ _)
    simp only [digitsValue, hc, if_true]
    exact ih (fun x hx => h x (List.mem_cons_of_mem _ hx)) _

theorem le_of_digitsValue (ds : List Char) (n v : Nat) (h : digitsValue ds n = some v) :
    n ≤ v := by
  induction ds generalizing n with
  | nil =>
    simp only [digitsValue, Option.some.injEq] at h
    omega
  | cons c cs ih =>
    simp only [digitsValue] at h
    by_cases hc : c.isDigit = true
    · simp only [hc, if_true] at h
      have := ih _ h
      omega
    · simp [hc] at h

theorem parseUintLoop_digits (ds : List Char) (h : ∀ x ∈ ds, x.isDigit = true) :
    ∀ (n v : Nat), n ≤ 18446744073709551615 → digitsValue ds n = some v →
      parseUintLoop ds n
        = if v ≤ 18446744073709551615 then (v, none)
          else (18446744073709551615, some .ErrRange) := by
  induction ds with
  | nil =>
    intro n v hn hv
    simp only [digitsValue, Option.some.injEq] at hv
    subst hv
    simp [parseUintLoop, hn]
  | cons c cs ih =>
    intro n v hn hv
    have hc : c.isDigit = true := h c (List.mem_cons_self _ _)
    simp only [digitsValue, hc, if_true] at hv
    have hle := le_of_digitsValue cs _ v hv
    simp only [parseUintLoop, hc, Bool.true_eq_false, if_false]
    by_cases h1 : 1844674407370955162 ≤ n
    · rw [if_pos h1, if_neg (by omega)]
    · rw [if_neg h1]
      by_cases h2 : 18446744073709551615 < n * 10 + (c.toNat - 48)
      · rw [if_pos h2, if_neg (by omega)]
      · rw [if_neg h2]
        exact ih (fun x hx => h x (List.mem_cons_of_mem _ hx)) _ v (by omega) hv

theorem Atoi_digits (ds : List Char) (hne : ds ≠ []) (h : ∀ x ∈ ds, x.isDigit = true) :
    ∃ un, digitsValue ds 0 = some un ∧
      Atoi (String.mk ds)
        = if 9223372036854775808 ≤ un then (maxInt, some .ErrRange) else ((un : Int), none) := by
  obtain ⟨un, hun⟩ := digitsValue_isSome ds h 0
  refine ⟨un, hun, ?_⟩
  have hloop := parseUintLoop_digits ds h 0 un (by decide) hun
  cases ds with
  | nil => exact absurd rfl hne
  | cons c cs =>
    have hc : c.isDigit = true := h c (List.mem_cons_self _ _)
    have h1 : c ≠ '+' := by rintro rfl; exact absurd hc (by decide)
    have h2 : c ≠ '-' := by rintro rfl; exact absurd hc (by decide)
    have hP : ParseUint (c :: cs)
        = if un ≤ 18446744073709551615 then (un, none)
          else (18446744073709551615, some .ErrRange) := hloop
    unfold Atoi
    simp only
    split
    · rename_i heq; cases heq
    · rename_i heq; cases heq; exact absurd rfl h1
    · rename_i heq; cases heq; exact absurd rfl h2
    · rw [hP]
      by_cases hb : un ≤ 18446744073709551615
      · rw [if_pos hb]
        by_cases hb2 : 9223372036854775808 ≤ un
        · simp [hb2]
        · simp [hb2]
      · rw [if_neg hb, if_pos (by omega)]
        simp

/-- The groups of a successful `ParseRR`, as the pieces of the match. -/
theorem ParseRR_ok (rr name ttl typ value : String)
    (h : ParseRR rr = .ok (name, ttl, typ, value)) :
    ∃ n w1 w2 w3 w4,
      matchToks rrPattern rr.data
        = some [n, ['.'], w1, ttl.data, w2, ['I'], ['N'], w3, typ.data, w4, value.data] ∧
      name.data = n ++ ['.'] := by
  unfold ParseRR at h
  cases hf : FindStringSubmatch rr with
  | none => rw [hf] at h; cases h
  | some g =>
    rw [hf] at h
    simp only [Except.ok.injEq] at h
    subst h
    unfold FindStringSubmatch at hf
    cases hm : matchToks rrPattern rr.data with
    | none => rw [hm] at hf; cases hf
    | some ps =>
      have hl := matchToks_length _ _ _ hm
      have hs := (matchToks_sound _ _ _ hm).1
      simp only [rrPattern, rrTail, List.length_cons, List.length_nil] at hl
      match ps, hl with
      | [n, d, w1, t, w2, i, nn, w3, ty, w4, v], _ =>
        rw [hm] at hf
        simp only [Option.some.injEq, Prod.mk.injEq] at hf
        obtain ⟨rfl, rfl, rfl, rfl⟩ := hf
        simp only [rrPattern, rrTail, List.forall₂_cons, PieceOK] at hs
        obtain ⟨-, rfl, -, -, -, rfl, rfl, -⟩ := hs
        exact ⟨n, w1, w2, w3, w4, rfl, rfl⟩

/-- Claim C7 (the code departs from it). For a line that matches and whose TTL field
`strconv.Atoi` rejects, `Atoi` returns the largest `int` with the range error the code
drops, and the product with `time.Second` wraps around: the record's TTL is minus one
second, not 0. Name, type and value are those of the line. -/
theorem C7_overflowing_TTL (rr name ttl typ value : String)
    (hp : ParseRR rr = .ok (name, ttl, typ, value)) (he : (Atoi ttl).2 ≠ none) :
    recordOfRR rr = .ok ⟨typ, name, value, -Second⟩ ∧ (Atoi ttl) = (maxInt, some .ErrRange) := by
  obtain ⟨n, w1, w2, w3, w4, hm, -⟩ := ParseRR_ok rr name ttl typ value hp
  have hs := (matchToks_sound _ _ _ hm).1
  simp only [rrPattern, rrTail, List.forall₂_cons, PieceOK] at hs
  obtain ⟨-, -, -, ⟨hne, hdig⟩, -⟩ := hs
  obtain ⟨un, -, hA⟩ := Atoi_digits ttl.data hne hdig
  have hA2 : Atoi ttl = (maxInt, some .ErrRange) := by
    by_cases hb : 9223372036854775808 ≤ un
    · simpa [hb] using hA
    · exfalso
      apply he
      have : Atoi ttl = ((un : Int), none) := by simpa [hb] using hA
      rw [this]
  refine ⟨?_, hA2⟩
  simp only [recordOfRR, hp, hA2]
  rfl

/-- Witness of `C7_overflowing_TTL`: a TTL field one above the largest `int`. -/
theorem C7_overflowing_TTL_witness :
    recordOfRR "acme.com. 9223372036854775808 IN A 1.2.3.4"
      = .ok ⟨"A", "acme.com.", "1.2.3.4", -Second⟩ ∧
    (Atoi "9223372036854775808") = (maxInt, some .ErrRange) :=
  C7_overflowing_TTL "acme.com. 9223372036854775808 IN A 1.2.3.4" "acme.com."
    "9223372036854775808" "A" "1.2.3.4" (by decide) (by decide)

/-! ## Claims on the remote calls of the provider -/

/-- The three ways `Provider.client` ends: client kept, login refused, login accepted. -/
theorem Provider.client_cases {σ : Type} (R : Remote σ) (w : World σ) :
    (Provider.client R w = (none, w)) ∨
    (∃ err ev, Provider.client R w
        = (some err, { remote := (R.Login w.remote).2, c := false, trace := w.trace ++ [ev] }) ∧
      ev.method = .newClient ∧ ev.resp.IsSuccess = false) ∨
    (∃ ev, Provider.client R w
        = (none, { remote := (R.Login w.remote).2, c := true, trace := w.trace ++ [ev] }) ∧
      ev.method = .newClient ∧ ev.resp.IsSuccess = true) := by
  unfold Provider.client
  by_cases hc : w.c = true
  · left; simp [hc]
  · right
    by_cases hl : (R.Login w.remote).1.IsSuccess = false
    · left
      exact ⟨"login failed, response code:" ++ fmtInt (R.Login w.remote).1.Code ++
        " description:" ++ (R.Login w.remote).1.Description ++ "\n",
        ⟨.newClient, [], (R.Login w.remote).1⟩, by simp [hc, hl], rfl, hl⟩
    · right
      exact ⟨⟨.newClient, [], (R.Login w.remote).1⟩, by simp [hc, hl], rfl, by simpa using hl⟩

/-- The run of `SetRecords` once the client is there, in a world `w1` whose trace extends
that of `w` by `pre`. -/
theorem SetRecords_body {σ : Type} (D : Deps) (R : Remote σ) (zone : String)
    (records : List Record) (w w1 : World σ) (pre : List Event)
    (hc : Provider.client R w = (none, w1)) (ht : w1.trace = w.trace ++ pre) :
    let out := SetRecords (hexonetClient D R) zone records w
    let l := R.Request (listCmd zone) w1.remote
    let le : Event := ⟨.getDNSEntries, listCmd zone, l.1⟩
    (l.1.IsSuccess = false ∧ out.1 = .ok ([], some (errorf "getDNSEntries" l.1)) ∧
      newEvents w out.2 = pre ++ [le]) ∨
    (l.1.IsSuccess = true ∧ decodeRecords l.1.Records = .error .indexOutOfRange ∧
      out.1 = .error .indexOutOfRange ∧ newEvents w out.2 = pre ++ [le]) ∨
    (∃ alls, l.1.IsSuccess = true ∧ decodeRecords l.1.Records = .ok alls ∧
      let dcmd := updateCmd D "delrr" zone (diffRecords alls records).2
      let d := R.Request dcmd l.2
      let de : Event := ⟨.removeDNSEntry, dcmd, d.1⟩
      ((d.1.IsSuccess = false ∧ out.1 = .ok ([], some (errorf "removeDNSEntry" d.1)) ∧
          newEvents w out.2 = pre ++ [le, de]) ∨
       (d.1.IsSuccess = true ∧
          let acmd := updateCmd D "addrr" zone (diffRecords alls records).1
          let a := R.Request acmd d.2
          let ae : Event := ⟨.addDNSEntry, acmd, a.1⟩
          newEvents w out.2 = pre ++ [le, de, ae] ∧
          ((a.1.IsSuccess = false ∧ out.1 = .ok ([], some (errorf "addDNSEntry" a.1))) ∨
           (a.1.IsSuccess = true ∧ out.1 = .ok (records, none)))))) := by
  dsimp only
  obtain ⟨out, hout⟩ : ∃ out, out = SetRecords (hexonetClient D R) zone records w := ⟨_, rfl⟩
  rw [← hout]
  simp only [SetRecords, hexonetClient, hc, client.getDNSEntries, request] at hout
  cases hl : (R.Request (listCmd zone) w1.remote).1.IsSuccess with
  | false =>
    left
    simp only [hl, if_true] at hout
    subst hout
    exact ⟨rfl, rfl, by simp [newEvents, ht]⟩
  | true =>
    right
    simp only [hl, Bool.true_eq_false, if_false] at hout
    cases hd : decodeRecords (R.Request (listCmd zone) w1.remote).1.Records with
    | error e =>
      left
      cases e
      simp only [hd] at hout
      subst hout
      exact ⟨rfl, rfl, rfl, by simp [newEvents, ht]⟩
    | ok alls =>
      right
      refine ⟨alls, rfl, rfl, ?_⟩
      simp only [hd, client.removeDNSEntry, client.addDNSEntry, request] at hout
      cases hr : (R.Request (updateCmd D "delrr" zone (diffRecords alls records).2)
          (R.Request (listCmd zone) w1.remote).2).1.IsSuccess with
      | false =>
        left
        simp only [hr, if_true] at hout
        subst hout
        exact ⟨rfl, rfl, by simp [newEvents, ht]⟩
      | true =>
        right
        simp only [hr, Bool.true_eq_false, if_false] at hout
        refine ⟨rfl, ?_⟩
        cases ha : (R.Request (updateCmd D "addrr" zone (diffRecords alls records).1)
            (R.Request (updateCmd D "delrr" zone (diffRecords alls records).2)
              (R.Request (listCmd zone) w1.remote).2).2).1.IsSuccess with
        | false =>
          simp only [ha, if_true] at hout
          subst hout
          exact ⟨by simp [newEvents, ht], Or.inl ⟨rfl, rfl⟩⟩
        | true =>
          simp only [ha, Bool.true_eq_false, if_false] at hout
          subst hout
          exact ⟨by simp [newEvents, ht], Or.inr ⟨rfl, rfl⟩⟩

/-- The two ways `Provider.client` ends, with the events it adds. -/
theorem Provider.client_events {σ : Type} (R : Remote σ) (w : World σ) :
    (∃ err w1 ev, Provider.client R w = (some err, w1) ∧ w1.trace = w.trace ++ [ev] ∧
      ev.method = .newClient ∧ ev.resp.IsSuccess = false) ∨
    (∃ w1 pre, Provider.client R w = (none, w1) ∧ w1.trace = w.trace ++ pre ∧
      ∀ e ∈ pre, e.method = .newClient ∧ e.resp.IsSuccess = true) := by
  rcases Provider.client_cases R w with h | ⟨err, ev, h, h1, h2⟩ | ⟨ev, h, h1, h2⟩
  · exact Or.inr ⟨w, [], h, by simp, by simp⟩
  · exact Or.inl ⟨err, _, ev, h, rfl, h1, h2⟩
  · refine Or.inr ⟨_, [ev], h, rfl, ?_⟩
    intro e he
    rw [List.mem_singleton] at he
    rw [he]
    exact ⟨h1, h2⟩

theorem SetRecords_login_fail {σ : Type} (D : Deps) (R : Remote σ) (zone : String)
    (records : List Record) (w w1 : World σ) (err : String)
    (hc : Provider.client R w = (some err, w1)) :
    SetRecords (hexonetClient D R) zone records w = (.ok ([], some err), w1) := by
  simp only [SetRecords, hexonetClient, hc]

theorem newEvents_of_trace {σ : Type} (w w1 : World σ) (es : List Event)
    (h : w1.trace = w.trace ++ es) : newEvents w w1 = es := by
  simp [newEvents, h]

theorem decodeRecords_ok (ds : List (GoMap String))
    (h : ∀ d ∈ ds, Matches rrPattern ((GoMap.get d "RR").getD "").data) :
    ∃ alls, decodeRecords ds = .ok alls := by
  induction ds with
  | nil => exact ⟨[], rfl⟩
  | cons d ds ih =>
    obtain ⟨alls, ha⟩ := ih (fun x hx => h x (List.mem_cons_of_mem _ hx))
    have hd := (FindStringSubmatch_isSome _).2 (h d (List.mem_cons_self _ _))
    obtain ⟨g, hg⟩ := Option.isSome_iff_exists.1 hd
    obtain ⟨n, t, ty, v⟩ := g
    exact ⟨⟨ty, n, v, wrapInt64 (Second * (Atoi t).1)⟩ :: alls,
      by simp [decodeRecords, recordOfRR, ParseRR, hg, ha]⟩

/-- Claim C6. If the remove command of a `SetRecords` call is answered with a failure, the
call returns the error made of that response's code and description, returns no records,
and sends no add command. -/
theorem C6_SetRecords_stops_at_failed_removal {σ : Type} (D : Deps) (R : Remote σ)
    (zone : String) (records : List Record) (w : World σ) (cmd : GoMap String)
    (resp : Response)
    (h : ⟨.removeDNSEntry, cmd, resp⟩
      ∈ newEvents w (SetRecords (hexonetClient D R) zone records w).2)
    (hf : resp.IsSuccess = false) :
    (SetRecords (hexonetClient D R) zone records w).1
      = .ok ([], some (errorf "removeDNSEntry" resp)) ∧
    ∀ e ∈ newEvents w (SetRecords (hexonetClient D R) zone records w).2,
      e.method ≠ .addDNSEntry := by
  rcases Provider.client_events R w with ⟨err, w1, ev, hc, ht, h1, h2⟩ | ⟨w1, pre, hc, ht, hpre⟩
  · rw [SetRecords_login_fail D R zone records w w1 err hc] at h ⊢
    rw [newEvents_of_trace w w1 [ev] ht] at h ⊢
    rw [List.mem_singleton] at h
    rw [← h] at h1
    cases h1
  · have hnp : ⟨.removeDNSEntry, cmd, resp⟩ ∉ pre := fun hm => by
      have := (hpre _ hm).1
      cases this
    have hpa : ∀ e ∈ pre, e.method ≠ .addDNSEntry := fun e he hm => by
      have := (hpre e he).1
      rw [hm] at this
      cases this
    have hb := SetRecords_body D R zone records w w1 pre hc ht
    dsimp only at hb
    rcases hb with ⟨_, _, he⟩ | ⟨_, _, _, he⟩ | ⟨alls, _, _, ⟨hd, ho, he⟩ | ⟨hd, he, _⟩⟩
    · rw [he] at h
      simp [hnp] at h
    · rw [he] at h
      simp [hnp] at h
    · rw [he] at h ⊢
      simp only [List.mem_append, hnp, false_or, List.mem_cons, Event.mk.injEq,
        List.mem_singleton, reduceCtorEq, false_and, List.not_mem_nil, or_false,
        true_and] at h
      obtain ⟨-, rfl⟩ := h
      refine ⟨ho, ?_⟩
      intro e hm
      simp only [List.mem_append, List.mem_cons, List.mem_singleton, List.not_mem_nil,
        or_false] at hm
      rcases hm with hm | rfl | rfl
      · exact hpa e hm
      · simp
      · simp
    · rw [he] at h
      simp only [List.mem_append, hnp, false_or, List.mem_cons, Event.mk.injEq,
        List.mem_singleton, reduceCtorEq, false_and, List.not_mem_nil, or_false,
        true_and] at h
      obtain ⟨-, rfl⟩ := h
      rw [hd] at hf
      cases hf

/-- Witness of `C6_SetRecords_stops_at_failed_removal`: the remote lists one A record and
refuses the update. -/
theorem C6_SetRecords_stops_at_failed_removal_witness :
    (SetRecords (hexonetClient exampleDeps
        (exampleRemote ["acme.com. 300 IN A 1.2.3.4"] ⟨false, 505, "Object does not exist", []⟩))
        "acme.com" [⟨"A", "acme.com.", "1.2.3.4", 600 * Second⟩] freshWorld).1
      = .ok ([], some "removeDNSEntry failed, response code:505 description:Object does not exist\n") ∧
    ∀ e ∈ newEvents freshWorld (SetRecords (hexonetClient exampleDeps
        (exampleRemote ["acme.com. 300 IN A 1.2.3.4"] ⟨false, 505, "Object does not exist", []⟩))
        "acme.com" [⟨"A", "acme.com.", "1.2.3.4", 600 * Second⟩] freshWorld).2,
      e.method ≠ .addDNSEntry :=
  C6_SetRecords_stops_at_failed_removal exampleDeps
    (exampleRemote ["acme.com. 300 IN A 1.2.3.4"] ⟨false, 505, "Object does not exist", []⟩)
    "acme.com" [⟨"A", "acme.com.", "1.2.3.4", 600 * Second⟩] freshWorld
    [("COMMAND", "UpdateDNSZone"), ("dnszone", "acme.com"),
      ("delrr0", "acme.com. 300 IN A 1.2.3.4")]
    ⟨false, 505, "Object does not exist", []⟩ (by decide) (by decide)

/-- Claim C2 (the code departs from it). When the remote API answers the list command of
`GetRecords` with a failure, `GetRecords` drops the error of `getDNSEntries`: it returns
no records and a nil error. -/
theorem C2_GetRecords_drops_list_error {σ : Type} (D : Deps) (R : Remote σ) (zone : String)
    (w : World σ) (cmd : GoMap String) (resp : Response)
    (h : ⟨.getDNSEntries, cmd, resp⟩ ∈ newEvents w (GetRecords (hexonetClient D R) zone w).2)
    (hf : resp.IsSuccess = false) :
    (GetRecords (hexonetClient D R) zone w).1 = .ok ([], none) := by
  rcases Provider.client_events R w with ⟨err, w1, ev, hc, ht, h1, h2⟩ | ⟨w1, pre, hc, ht, hpre⟩
  · simp only [GetRecords, hexonetClient, hc] at h
    rw [newEvents_of_trace w w1 [ev] ht, List.mem_singleton] at h
    rw [← h] at h1
    cases h1
  · have hnp : ⟨.getDNSEntries, cmd, resp⟩ ∉ pre := fun hm => by
      have := (hpre _ hm).1
      cases this
    simp only [GetRecords, hexonetClient, hc, client.getDNSEntries, request] at h ⊢
    cases hl : (R.Request (listCmd zone) w1.remote).1.IsSuccess with
    | false => simp only [hl, if_true]
    | true =>
      exfalso
      simp only [hl, Bool.true_eq_false, if_false] at h
      cases hd : decodeRecords (R.Request (listCmd zone) w1.remote).1.Records with
      | error e =>
        simp only [hd] at h
        simp only [newEvents, ht, List.append_assoc, List.drop_left, List.mem_append, hnp,
          false_or, List.mem_singleton, Event.mk.injEq, true_and] at h
        rw [h.2, hl] at hf
        cases hf
      | ok recs =>
        simp only [hd] at h
        simp only [newEvents, ht, List.append_assoc, List.drop_left, List.mem_append, hnp,
          false_or, List.mem_singleton, Event.mk.injEq, true_and] at h
        rw [h.2, hl] at hf
        cases hf

/-- Witness of `C2_GetRecords_drops_list_error`: the list command is refused with code 505,
"Object does not exist". -/
theorem C2_GetRecords_drops_list_error_witness :
    (GetRecords (hexonetClient exampleDeps refusingRemote) "acme.com" freshWorld).1
      = .ok ([], none) :=
  C2_GetRecords_drops_list_error exampleDeps refusingRemote "acme.com" freshWorld
    (listCmd "acme.com") ⟨false, 505, "Object does not exist", []⟩ (by decide) (by decide)

/-- Claim C10, refuted as stated: every remote call succeeds, the list holds a line that
is no record line, and `SetRecords` panics after the list command: no remove, no add, no
records returned. -/
theorem C10_counterexample :
    (∀ e ∈ newEvents freshWorld (SetRecords (hexonetClient exampleDeps
        (exampleRemote ["acme.com 300 IN A 1.2.3.4"] ⟨true, 200, "", []⟩))
        "acme.com" [⟨"A", "acme.com.", "1.2.3.4", 600 * Second⟩] freshWorld).2,
      e.resp.IsSuccess = true) ∧
    (SetRecords (hexonetClient exampleDeps
        (exampleRemote ["acme.com 300 IN A 1.2.3.4"] ⟨true, 200, "", []⟩))
        "acme.com" [⟨"A", "acme.com.", "1.2.3.4", 600 * Second⟩] freshWorld).1
      = .error .indexOutOfRange ∧
    (newEvents freshWorld (SetRecords (hexonetClient exampleDeps
        (exampleRemote ["acme.com 300 IN A 1.2.3.4"] ⟨true, 200, "", []⟩))
        "acme.com" [⟨"A", "acme.com.", "1.2.3.4", 600 * Second⟩] freshWorld).2).map
          (fun e => e.method)
      = [.newClient, .getDNSEntries] := by
  decide

/-- Claim C10, amended. One `SetRecords` call sends, after the login if any, a prefix of
list, remove, add: at most one list command, at most two updates, the remove before the
add. When every call it made succeeded and every listed line is a record line, it sent
exactly the list command, the remove command for the scheduled removals (even if none)
and the add command for the desired records (even if none), and it returns the desired
records. -/
theorem C10_SetRecords_call_sequence {σ : Type} (D : Deps) (R : Remote σ) (zone : String)
    (records : List Record) (w : World σ) :
    (((newEvents w (SetRecords (hexonetClient D R) zone records w).2).map
        (fun e => e.method)).filter (fun m => m ≠ .newClient)
      <+: [.getDNSEntries, .removeDNSEntry, .addDNSEntry]) ∧
    (newEvents w (SetRecords (hexonetClient D R) zone records w).2).countP
        (fun e => e.method = .getDNSEntries) ≤ 1 ∧
    (newEvents w (SetRecords (hexonetClient D R) zone records w).2).countP
        (fun e => e.method = .removeDNSEntry ∨ e.method = .addDNSEntry) ≤ 2 ∧
    ((∀ e ∈ newEvents w (SetRecords (hexonetClient D R) zone records w).2,
        e.resp.IsSuccess = true ∧
        ∀ d ∈ e.resp.Records, e.method = .getDNSEntries →
          Matches rrPattern ((GoMap.get d "RR").getD "").data) →
      ∃ alls lresp dresp aresp,
        (newEvents w (SetRecords (hexonetClient D R) zone records w).2).filter
            (fun e => e.method ≠ .newClient)
          = [⟨.getDNSEntries, listCmd zone, lresp⟩,
             ⟨.removeDNSEntry, updateCmd D "delrr" zone
               (records.filterMap (fun r => lastWithKey alls (recordKey r))), dresp⟩,
             ⟨.addDNSEntry, updateCmd D "addrr" zone records, aresp⟩] ∧
        decodeRecords lresp.Records = .ok alls ∧
        (SetRecords (hexonetClient D R) zone records w).1 = .ok (records, none)) := by
  rcases Provider.client_events R w with ⟨err, w1, ev, hc, ht, h1, h2⟩ | ⟨w1, pre, hc, ht, hpre⟩
  · rw [SetRecords_login_fail D R zone records w w1 err hc, newEvents_of_trace w w1 [ev] ht]
    refine ⟨by simp [h1], by simp [h1], by simp [h1], ?_⟩
    intro hall
    have := (hall ev (List.mem_singleton_self _)).1
    rw [h2] at this
    cases this
  · have hm : ∀ e ∈ pre, e.method = .newClient := fun e he => (hpre e he).1
    have hf1 : (pre.map (fun e => e.method)).filter (fun m => m ≠ .newClient) = [] := by
      rw [List.filter_eq_nil_iff]
      intro m hmem
      obtain ⟨e, he, rfl⟩ := List.mem_map.1 hmem
      simp [hm e he]
    have hf2 : pre.filter (fun e => e.method ≠ .newClient) = [] := by
      rw [List.filter_eq_nil_iff]
      intro e he
      simp [hm e he]
    have hc1 : pre.countP (fun e => e.method = .getDNSEntries) = 0 := by
      rw [List.countP_eq_zero]
      intro e he
      simp [hm e he]
    have hc2 : pre.countP (fun e => e.method = .removeDNSEntry ∨ e.method = .addDNSEntry)
        = 0 := by
      rw [List.countP_eq_zero]
      intro e he
      simp [hm e he]
    have hb := SetRecords_body D R zone records w w1 pre hc ht
    dsimp only at hb
    rcases hb with ⟨hl, _, he⟩ | ⟨_, hd, ho, he⟩ |
      ⟨alls, _, hd, ⟨hr, ho, he⟩ | ⟨_, he, ⟨ha, ho⟩ | ⟨_, ho⟩⟩⟩
    · rw [he]
      refine ⟨?_, ?_, ?_, ?_⟩
      · rw [List.map_append, List.filter_append, hf1]
        simp only [List.map_cons, List.map_nil, List.nil_append]
        decide
      · rw [List.countP_append, hc1]; simp
      · rw [List.countP_append, hc2]; simp
      · intro hall
        have := (hall _ (List.mem_append_right _ (List.mem_singleton_self _))).1
        rw [hl] at this
        cases this
    · rw [he]
      refine ⟨?_, ?_, ?_, ?_⟩
      · rw [List.map_append, List.filter_append, hf1]
        simp only [List.map_cons, List.map_nil, List.nil_append]
        decide
      · rw [List.countP_append, hc1]; simp
      · rw [List.countP_append, hc2]; simp
      · intro hall
        have hmatch := (hall _ (List.mem_append_right _ (List.mem_singleton_self _))).2
        obtain ⟨alls, hok⟩ := decodeRecords_ok _ (fun d hd => hmatch d hd rfl)
        rw [hok] at hd
        cases hd
    · rw [he]
      refine ⟨?_, ?_, ?_, ?_⟩
      · rw [List.map_append, List.filter_append, hf1]
        simp only [List.map_cons, List.map_nil, List.nil_append]
        decide
      · rw [List.countP_append, hc1]; simp
      · rw [List.countP_append, hc2]; simp
      · intro hall
        have := (hall _ (List.mem_append_right _
          (List.mem_cons_of_mem _ (List.mem_singleton_self _)))).1
        rw [hr] at this
        cases this
    · rw [he]
      refine ⟨?_, ?_, ?_, ?_⟩
      · rw [List.map_append, List.filter_append, hf1]
        simp only [List.map_cons, List.map_nil, List.nil_append]
        decide
      · rw [List.countP_append, hc1]; simp
      · rw [List.countP_append, hc2]; simp
      · intro hall
        have := (hall _ (List.mem_append_right _ (List.mem_cons_of_mem _
          (List.mem_cons_of_mem _ (List.mem_singleton_self _))))).1
        rw [ha] at this
        cases this
    · rw [he]
      refine ⟨?_, ?_, ?_, ?_⟩
      · rw [List.map_append, List.filter_append, hf1]
        simp only [List.map_cons, List.map_nil, List.nil_append]
        decide
      · rw [List.countP_append, hc1]; simp
      · rw [List.countP_append, hc2]; simp
      · intro _
        refine ⟨alls, (R.Request (listCmd zone) w1.remote).1,
          (R.Request (updateCmd D "delrr" zone (diffRecords alls records).2)
            (R.Request (listCmd zone) w1.remote).2).1,
          (R.Request (updateCmd D "addrr" zone (diffRecords alls records).1)
            (R.Request (updateCmd D "delrr" zone (diffRecords alls records).2)
              (R.Request (listCmd zone) w1.remote).2).2).1, ?_, hd, ho⟩
        rw [List.filter_append, hf2]
        simp [diffRecords_eq]

/-! ## Decimal numbers -/

theorem digitChar_spec (d : Nat) (h : d < 10) :
    (Nat.digitChar d).isDigit = true ∧ (Nat.digitChar d).toNat - 48 = d := by
  interval_cases d <;> decide

theorem digitsValue_append_single (ds : List Char) (c : Char) (v a : Nat)
    (h : digitsValue ds v = some a) (hc : c.isDigit = true) :
    digitsValue (ds ++ [c]) v = some (a * 10 + (c.toNat - 48)) := by
  induction ds generalizing v with
  | nil =>
    simp only [digitsValue, Option.some.injEq] at h
    simp [digitsValue, hc, h]
  | cons x xs ih =>
    simp only [List.cons_append, digitsValue] at h ⊢
    by_cases hx : x.isDigit = true
    · simp only [hx, if_true] at h ⊢
      exact ih _ h
    · simp [hx] at h

theorem toDigitsCore_spec (fuel : Nat) : ∀ (n : Nat) (acc : List Char), n < fuel →
    ∃ ds, Nat.toDigitsCore 10 fuel n acc = ds ++ acc ∧ ds ≠ [] ∧
      (∀ c ∈ ds, c.isDigit = true) ∧ digitsValue ds 0 = some n := by
  induction fuel with
  | zero => intro n acc h; omega
  | succ fuel ih =>
    intro n acc h
    have hd := digitChar_spec (n % 10) (Nat.mod_lt _ (by decide))
    simp only [Nat.toDigitsCore]
    by_cases h0 : n / 10 = 0
    · simp only [h0, if_true]
      refine ⟨[Nat.digitChar (n % 10)], rfl, by simp, by simpa using hd.1, ?_⟩
      have hn : n % 10 = n := Nat.mod_eq_of_lt (by omega)
      have hd2 := hd
      rw [hn] at hd2
      simp only [digitsValue, hn, hd2.1, hd2.2, if_true, Nat.zero_mul, Nat.zero_add]
    · simp only [h0, if_false]
      obtain ⟨ds, h1, h2, h3, h4⟩ := ih (n / 10) (Nat.digitChar (n % 10) :: acc) (by omega)
      refine ⟨ds ++ [Nat.digitChar (n % 10)], by simp [h1], by simp, ?_, ?_⟩
      · intro c hc
        rw [List.mem_append, List.mem_singleton] at hc
        rcases hc with hc | hc
        · exact h3 c hc
        · rw [hc]; exact hd.1
      · rw [digitsValue_append_single ds _ 0 _ h4 hd.1, hd.2]
        congr 1
        omega

/-- The decimal text of a natural number: digits only, at least one, with its value. -/
theorem repr_spec (n : Nat) :
    (Nat.repr n).data ≠ [] ∧ (∀ c ∈ (Nat.repr n).data, c.isDigit = true) ∧
      digitsValue (Nat.repr n).data 0 = some n := by
  obtain ⟨ds, h1, h2, h3, h4⟩ := toDigitsCore_spec (n + 1) n [] (by omega)
  have : (Nat.repr n).data = ds := by
    simp [Nat.repr, Nat.toDigits, List.asString, h1]
  rw [this]
  exact ⟨h2, h3, h4⟩

theorem fmtInt_natCast (n : Nat) : fmtInt (n : Int) = Nat.repr n := by
  simp [fmtInt]

theorem fmtInt_natCast_inj (i j : Nat) (h : fmtInt (i : Int) = fmtInt (j : Int)) : i = j := by
  rw [fmtInt_natCast, fmtInt_natCast] at h
  have h1 := (repr_spec i).2.2
  have h2 := (repr_spec j).2.2
  rw [h, h2] at h1
  exact (Option.some.inj h1).symm

/-! ## Claim on the command maps -/

theorem GoMap.set_of_get_none {α : Type} (m : GoMap α) (k : String) (v : α)
    (h : GoMap.get m k = none) : GoMap.set m k v = m ++ [(k, v)] := by
  induction m with
  | nil => rfl
  | cons e m ih =>
    obtain ⟨k1, v1⟩ := e
    by_cases h1 : k1 = k
    · simp [GoMap.get, h1] at h
    · simp only [GoMap.get, h1, if_false] at h
      simp [GoMap.set, h1, ih h]

theorem GoMap.get_append {α : Type} (m m' : GoMap α) (k : String) :
    GoMap.get (m ++ m') k = (GoMap.get m k).or (GoMap.get m' k) := by
  induction m with
  | nil => simp [GoMap.get]
  | cons e m ih =>
    obtain ⟨k1, v1⟩ := e
    by_cases h1 : k1 = k
    · simp [GoMap.get, h1]
    · simp [GoMap.get, h1, ih]

theorem string_append_left_cancel (p a b : String) (h : p ++ a = p ++ b) : a = b := by
  have := congrArg String.data h
  rw [String.data_append, String.data_append] at this
  exact String.ext (List.append_cancel_left this)

theorem rrKey_inj (pfx : String) (i j : Nat)
    (h : pfx ++ fmtInt (i : Int) = pfx ++ fmtInt (j : Int)) : i = j :=
  fmtInt_natCast_inj i j (string_append_left_cancel pfx _ _ h)

theorem rrEntries_get (D : Deps) (pfx : String) (rs : List Record) :
    ∀ (i0 j : Nat) (hj : j < rs.length),
      GoMap.get (rrEntries D pfx rs i0) (pfx ++ fmtInt ((i0 + j : Nat) : Int))
        = some (formatRR D (rs.get ⟨j, hj⟩)) := by
  induction rs with
  | nil => intro i0 j hj; simp at hj
  | cons r rs ih =>
    intro i0 j hj
    cases j with
    | zero => simp [rrEntries, List.enumFrom, GoMap.get]
    | succ j =>
      have hne : ¬ pfx ++ fmtInt (i0 : Int) = pfx ++ fmtInt ((i0 + (j + 1) : Nat) : Int) := by
        intro h
        have := rrKey_inj pfx _ _ h
        omega
      have hj2 : j < rs.length := by simpa using hj
      have := ih (i0 + 1) j hj2
      have he : i0 + 1 + j = i0 + (j + 1) := by omega
      rw [he] at this
      simp only [rrEntries, List.enumFrom, List.map_cons, GoMap.get, hne, if_false]
      simpa [rrEntries] using this

theorem rrEntries_keys (D : Deps) (pfx : String) (rs : List Record) :
    ∀ (i0 : Nat), (rrEntries D pfx rs i0).map Prod.fst
      = (List.range' i0 rs.length).map (fun (i : Nat) => pfx ++ fmtInt (i : Int)) := by
  induction rs with
  | nil => intro i0; rfl
  | cons r rs ih =>
    intro i0
    have := ih (i0 + 1)
    simp only [rrEntries] at this
    simp [rrEntries, List.enumFrom, List.range'_succ, this]

theorem rrParams_eq (D : Deps) (pfx : String) (rs : List Record) :
    ∀ (i0 : Nat) (cmd : GoMap String),
      (∀ j : Nat, GoMap.get cmd (pfx ++ fmtInt ((i0 + j : Nat) : Int)) = none) →
      rrParams D pfx rs i0 cmd = cmd ++ rrEntries D pfx rs i0 := by
  induction rs with
  | nil => intro i0 cmd _; simp [rrParams, rrEntries]
  | cons r rs ih =>
    intro i0 cmd hfresh
    have h0 : GoMap.get cmd (pfx ++ fmtInt (i0 : Int)) = none := by simpa using hfresh 0
    rw [rrParams, GoMap.set_of_get_none _ _ _ h0, ih (i0 + 1)]
    · simp [rrEntries, List.enumFrom]
    · intro j
      have hne : ¬ pfx ++ fmtInt (i0 : Int) = pfx ++ fmtInt ((i0 + 1 + j : Nat) : Int) := by
        intro h
        have := rrKey_inj pfx _ _ h
        omega
      have he : i0 + 1 + j = i0 + (j + 1) := by omega
      rw [GoMap.get_append]
      have := hfresh (j + 1)
      rw [← he] at this
      rw [this]
      simp only [GoMap.get, hne, if_false]
      rfl

theorem rrKey_ne (pfx : String) (hp : pfx = "addrr" ∨ pfx = "delrr") (t : String) :
    pfx ++ t ≠ "COMMAND" ∧ pfx ++ t ≠ "dnszone" := by
  rcases hp with rfl | rfl
  · have h : ("addrr" ++ t).data = 'a' :: 'd' :: 'd' :: 'r' :: 'r' :: t.data := rfl
    constructor <;> intro e <;> rw [e] at h <;> cases h
  · have h : ("delrr" ++ t).data = 'd' :: 'e' :: 'l' :: 'r' :: 'r' :: t.data := rfl
    constructor <;> intro e <;> rw [e] at h <;> cases h

theorem updateCmd_eq (D : Deps) (pfx : String) (hp : pfx = "addrr" ∨ pfx = "delrr")
    (zone : String) (records : List Record) :
    updateCmd D pfx zone records
      = ("COMMAND", "UpdateDNSZone") :: ("dnszone", zone) :: rrEntries D pfx records 0 := by
  unfold updateCmd
  rw [rrParams_eq]
  · rfl
  · intro j
    have h := rrKey_ne pfx hp (fmtInt ((0 + j : Nat) : Int))
    simp only [GoMap.get, if_neg h.1.symm, if_neg h.2.symm]

theorem TXTSanitize_of_ne (D : Deps) (r : Record) (h : r.Typ ≠ "TXT") :
    TXTSanitize D r = r.Value := by
  simp [TXTSanitize, h]

theorem updateCmd_spec (D : Deps) (pfx : String) (hp : pfx = "addrr" ∨ pfx = "delrr")
    (zone : String) (records : List Record) :
    CommandMapSpec D pfx zone records (updateCmd D pfx zone records) := by
  rw [updateCmd_eq D pfx hp]
  have hkey : ∀ (i : Nat) (hi : i < records.length),
      GoMap.get (("COMMAND", "UpdateDNSZone") :: ("dnszone", zone) :: rrEntries D pfx records 0)
          (pfx ++ fmtInt (i : Int)) = some (formatRR D (records.get ⟨i, hi⟩)) := by
    intro i hi
    have h := rrKey_ne pfx hp (fmtInt (i : Int))
    have := rrEntries_get D pfx records 0 i hi
    rw [Nat.zero_add] at this
    simp only [GoMap.get, if_neg h.1.symm, if_neg h.2.symm, this]
  have hkeys := rrEntries_keys D pfx records 0
  refine ⟨by simp [GoMap.get], by simp [GoMap.get], ?_, ?_, ?_, ?_, ?_⟩
  · intro i hi
    rw [hkey i hi]
    rfl
  · intro i hi ht
    rw [hkey i hi, formatRR, TXTSanitize_of_ne D _ ht]
  · intro k v hm
    simp only [List.mem_cons, Prod.mk.injEq] at hm
    rcases hm with ⟨rfl, -⟩ | ⟨rfl, -⟩ | hm
    · exact Or.inl rfl
    · exact Or.inr (Or.inl rfl)
    · right; right
      have hk : k ∈ (rrEntries D pfx records 0).map Prod.fst := List.mem_map.2 ⟨(k, v), hm, rfl⟩
      rw [hkeys, List.mem_map] at hk
      obtain ⟨i, hi, rfl⟩ := hk
      rw [List.mem_range'_1] at hi
      exact ⟨i, by omega, rfl⟩
  · simp only [List.map_cons, hkeys, List.nodup_cons, List.mem_cons, List.mem_map, not_or,
      not_exists, not_and]
    refine ⟨⟨by decide, ?_⟩, ?_, ?_⟩
    · intro i _ h
      exact (rrKey_ne pfx hp _).1 h
    · intro i _ h
      exact (rrKey_ne pfx hp _).2 h
    · refine List.Nodup.map_on ?_ (List.nodup_range' _ _)
      intro i _ j _ h
      exact rrKey_inj pfx i j h
  · simp [rrEntries]

/-- Claim C9. The command `addDNSEntry` sends is the map with `COMMAND = "UpdateDNSZone"`,
`dnszone = zone` and, for each index `i` of the record list, one parameter `addrr<i>` whose
value is the line `<Name> <seconds of TTL> IN <Type> <v>`, `v` being the value itself
unless the type is `TXT`; it has no other parameter. `removeDNSEntry` sends the same map
with the keys `delrr<i>`. -/
theorem C9_update_command_map {σ : Type} (D : Deps) (R : Remote σ) (zone : String)
    (records : List Record) (w : World σ) :
    (∃ resp, (client.addDNSEntry D R zone records w).2.trace
        = w.trace ++ [⟨.addDNSEntry, updateCmd D "addrr" zone records, resp⟩]) ∧
    CommandMapSpec D "addrr" zone records (updateCmd D "addrr" zone records) ∧
    (∃ resp, (client.removeDNSEntry D R zone records w).2.trace
        = w.trace ++ [⟨.removeDNSEntry, updateCmd D "delrr" zone records, resp⟩]) ∧
    CommandMapSpec D "delrr" zone records (updateCmd D "delrr" zone records) := by
  refine ⟨⟨(R.Request (updateCmd D "addrr" zone records) w.remote).1, ?_⟩,
    updateCmd_spec D "addrr" (Or.inl rfl) zone records,
    ⟨(R.Request (updateCmd D "delrr" zone records) w.remote).1, ?_⟩,
    updateCmd_spec D "delrr" (Or.inr rfl) zone records⟩
  · unfold client.addDNSEntry request
    dsimp only
    split <;> rfl
  · unfold client.removeDNSEntry request
    dsimp only
    split <;> rfl

/-! ## Claim on the round trip of a record line -/

theorem matchToks_lit (c : Char) (ts : List Tok) (s : List Char) (ps : List (List Char))
    (h : matchToks ts s = some ps) : matchToks (.lit c :: ts) (c :: s) = some ([c] :: ps) := by
  simp [matchToks, h]

theorem matchToks_lit_eq (c : Char) (ts : List Tok) (s : List Char) :
    matchToks (.lit c :: ts) (c :: s) = (matchToks ts s).map (fun ps => [c] :: ps) := by
  simp [matchToks]

theorem matchToks_lit_ne (c x : Char) (ts : List Tok) (s : List Char) (h : x ≠ c) :
    matchToks (.lit c :: ts) (x :: s) = none := by
  simp [matchToks, h]

/-- The greedy `x+` on `a ++ b`, when the rest matches `b` and no shorter end of `b`. -/
theorem matchToks_plus_greedy (cls : Char → Bool) (ts : List Tok) (a b : List Char)
    (ps : List (List Char)) (ha : a ≠ []) (hcls : ∀ x ∈ a, cls x = true)
    (hb : matchToks ts b = some ps)
    (hlong : ∀ p q, p ≠ [] → p ++ q = b → matchToks ts q = none) :
    matchToks (.plus cls :: ts) (a ++ b) = some (a :: ps) := by
  have hpos : 1 ≤ a.length := by
    cases a with
    | nil => exact absurd rfl ha
    | cons c a => simp
  have hK := length_le_takeWhile cls a b hcls
  have hKle : ((a ++ b).takeWhile cls).length ≤ (a ++ b).length :=
    (List.takeWhile_sublist cls).length_le
  have := tryPlus_greedy (matchToks ts) (a ++ b) ((a ++ b).takeWhile cls).length a.length ps
    hpos hK (by rw [List.drop_left]; exact hb) (by
      intro j hj1 hj2
      have hsplit : (a ++ b).drop j = b.drop (j - a.length) := by
        rw [List.drop_append_eq_append_drop, List.drop_eq_nil_of_le (by omega), List.nil_append]
      rw [hsplit]
      apply hlong (b.take (j - a.length)) _ _ (List.take_append_drop _ _)
      intro h0
      have := congrArg List.length h0
      simp only [List.length_take, List.length_nil, List.length_append] at this hKle
      omega)
  rw [List.take_left] at this
  simpa [matchToks] using this

/-- The `x+` on `a ++ b` when `b` is empty or starts outside the class `x`. -/
theorem matchToks_plus_exact (cls : Char → Bool) (ts : List Tok) (a b : List Char)
    (ps : List (List Char)) (ha : a ≠ []) (hcls : ∀ x ∈ a, cls x = true)
    (hstop : b.takeWhile cls = []) (hb : matchToks ts b = some ps) :
    matchToks (.plus cls :: ts) (a ++ b) = some (a :: ps) := by
  have hpos : 1 ≤ a.length := by
    cases a with
    | nil => exact absurd rfl ha
    | cons c a => simp
  have hK : ((a ++ b).takeWhile cls).length = a.length := by
    rw [List.takeWhile_append_of_pos hcls, hstop, List.append_nil]
  have := tryPlus_greedy (matchToks ts) (a ++ b) a.length a.length ps
    hpos (le_refl _) (by rw [List.drop_left]; exact hb) (by intro j h1 h2; omega)
  rw [List.take_left] at this
  simp only [matchToks, hK]
  exact this

theorem takeWhile_nil_of_head (cls : Char → Bool) (c : Char) (s : List Char)
    (h : cls c = false) : (c :: s).takeWhile cls = [] := by
  simp [List.takeWhile_cons, h]

theorem isWord_of_isAlphanum (c : Char) (h : c.isAlphanum = true) : isWord c = true := by
  simp only [Char.isAlphanum, Char.isAlpha, Bool.or_eq_true] at h
  simp only [isWord, Bool.or_eq_true]
  rcases h with (h | h) | h
  · exact Or.inl (Or.inl (Or.inr h))
  · exact Or.inl (Or.inr h)
  · exact Or.inl (Or.inl (Or.inl h))

theorem ne_dot_of_isDigit (c : Char) (h : c.isDigit = true) : c ≠ '.' := by
  rintro rfl; exact absurd h (by decide)

theorem ne_dot_of_isAlphanum (c : Char) (h : c.isAlphanum = true) : c ≠ '.' := by
  rintro rfl; exact absurd h (by decide)

theorem isSpace_of_isDigit (c : Char) (h : c.isDigit = true) : isSpace c = false := by
  simp only [Char.isDigit, Bool.and_eq_true, decide_eq_true_eq] at h
  have h1 : 48 ≤ c.val.toNat := by
    have := h.1
    exact this
  simp only [isSpace, Bool.or_eq_false_iff, beq_eq_false_iff_ne]
  refine ⟨⟨⟨⟨?_, ?_⟩, ?_⟩, ?_⟩, ?_⟩ <;> rintro rfl <;> revert h1 <;> decide

/-- The rest of the pattern on the rest of a formatted line. -/
theorem matchToks_rrTail (t ty v : List Char) (ht : t ≠ []) (htd : ∀ c ∈ t, c.isDigit = true)
    (hty : ty ≠ []) (htyw : ∀ c ∈ ty, isWord c = true)
    (hv : ∀ c ∈ v, isDot c = true) (hv0 : ∃ c rest, v = c :: rest ∧ isSpace c = false) :
    matchToks rrTail (' ' :: (t ++ ' ' :: 'I' :: 'N' :: ' ' :: (ty ++ ' ' :: v)))
      = some [[' '], t, [' '], ['I'], ['N'], [' '], ty, [' '], v] := by
  obtain ⟨c0, rest, rfl, hc0⟩ := hv0
  have h9 : matchToks [.plus isDot] (c0 :: rest) = some [c0 :: rest] := by
    have := matchToks_plus_exact isDot [] (c0 :: rest) [] [] (by simp) hv rfl rfl
    simpa using this
  have h8 : matchToks [.plus isSpace, .plus isDot] (' ' :: c0 :: rest)
      = some [[' '], c0 :: rest] :=
    matchToks_plus_exact isSpace _ [' '] (c0 :: rest) _ (by simp) (by decide)
      (takeWhile_nil_of_head _ _ _ hc0) h9
  have h7 : matchToks [.plus isWord, .plus isSpace, .plus isDot] (ty ++ ' ' :: c0 :: rest)
      = some [ty, [' '], c0 :: rest] :=
    matchToks_plus_exact isWord _ ty _ _ hty htyw (takeWhile_nil_of_head _ _ _ (by decide)) h8
  have hI : ('I' :: 'N' :: ' ' :: (ty ++ ' ' :: c0 :: rest)).takeWhile isSpace = [] :=
    takeWhile_nil_of_head _ _ _ (by decide)
  have h6 : matchToks [.plus isSpace, .plus isWord, .plus isSpace, .plus isDot]
      (' ' :: (ty ++ ' ' :: c0 :: rest)) = some [[' '], ty, [' '], c0 :: rest] := by
    obtain ⟨y, ys, rfl⟩ := List.exists_cons_of_ne_nil hty
    have hy : isSpace y = false := by
      have hw := htyw y (List.mem_cons_self _ _)
      cases hs : isSpace y with
      | false => rfl
      | true =>
        exfalso
        simp only [isSpace, Bool.or_eq_true, beq_iff_eq] at hs
        rcases hs with (((rfl | rfl) | rfl) | rfl) | rfl <;> exact absurd hw (by decide)
    exact matchToks_plus_exact isSpace _ [' '] _ _ (by simp) (by decide)
      (takeWhile_nil_of_head _ _ _ hy) h7
  have h4 := matchToks_lit 'I' _ _ _ (matchToks_lit 'N' _ _ _ h6)
  have h3 : matchToks (.plus isSpace :: .lit 'I' :: .lit 'N' :: [.plus isSpace, .plus isWord,
      .plus isSpace, .plus isDot]) (' ' :: 'I' :: 'N' :: ' ' :: (ty ++ ' ' :: c0 :: rest))
      = some [[' '], ['I'], ['N'], [' '], ty, [' '], c0 :: rest] :=
    matchToks_plus_exact isSpace _ [' '] _ _ (by simp) (by decide) hI h4
  have h2 := matchToks_plus_exact isDigit _ t _ _ ht htd
    (takeWhile_nil_of_head isDigit ' ' _ (by decide)) h3
  obtain ⟨d, ds, rfl⟩ := List.exists_cons_of_ne_nil ht
  have hd : isSpace d = false := isSpace_of_isDigit d (htd d (List.mem_cons_self _ _))
  exact matchToks_plus_exact isSpace _ [' '] _ _ (by simp) (by decide)
    (takeWhile_nil_of_head _ _ _ hd) h2

theorem formatRR_data (D : Deps) (r : Record) :
    (formatRR D r).data
      = r.Name.data ++ ' ' :: ((fmtInt (D.seconds r.TTL)).data ++
          ' ' :: 'I' :: 'N' :: ' ' :: (r.Typ.data ++ ' ' :: (TXTSanitize D r).data)) := by
  have h1 : (" " : String).data = [' '] := rfl
  have h2 : (" IN " : String).data = [' ', 'I', 'N', ' '] := rfl
  simp [formatRR, String.data_append, h1, h2]

theorem wrapInt64_of_range (z : Int) (h1 : 0 ≤ z) (h2 : z ≤ maxInt) : wrapInt64 z = z := by
  unfold wrapInt64
  unfold maxInt at h2
  rw [Int.emod_eq_of_lt (by omega) (by omega)]
  omega

/-- The first group `(.+\.)` on a formatted line: the name, when nothing after a later dot
reads as the rest of a record line. -/
theorem matchToks_rrPattern (n t ty v : List Char) (hn : n ≠ [])
    (hnd : ∀ c ∈ n, isDot c = true)
    (ht : t ≠ []) (htd : ∀ c ∈ t, c.isDigit = true)
    (hty : ty ≠ []) (htya : ∀ c ∈ ty, c.isAlphanum = true)
    (hv : ∀ c ∈ v, isDot c = true) (hv0 : ∃ c rest, v = c :: rest ∧ isSpace c = false)
    (hamb : ∀ q, '.' :: q <:+ v → ¬ Matches rrTail q) :
    matchToks rrPattern
        (n ++ '.' :: ' ' :: (t ++ ' ' :: 'I' :: 'N' :: ' ' :: (ty ++ ' ' :: v)))
      = some [n, ['.'], [' '], t, [' '], ['I'], ['N'], [' '], ty, [' '], v] := by
  have htail := matchToks_rrTail t ty v ht htd hty
    (fun c hc => isWord_of_isAlphanum c (htya c hc)) hv hv0
  have hsuf : ∀ q', '.' :: q' <:+ v → matchToks (.lit '.' :: rrTail) ('.' :: q') = none := by
    intro q' hq
    have := hamb q' hq
    rw [← matchToks_matches] at this
    cases hm : matchToks rrTail q' with
    | none => rw [matchToks_lit_eq, hm]; rfl
    | some ps => rw [hm] at this; simp at this
  have hmid : ∀ c ∈ ' ' :: (t ++ ' ' :: 'I' :: 'N' :: ' ' :: (ty ++ [' '])), c ≠ '.' := by
    intro c hc
    simp only [List.mem_cons, List.mem_append, List.mem_singleton, List.not_mem_nil,
      or_false] at hc
    rcases hc with rfl | hc | rfl | rfl | rfl | rfl | hc | rfl
    · decide
    · exact ne_dot_of_isDigit c (htd c hc)
    · decide
    · decide
    · decide
    · decide
    · exact ne_dot_of_isAlphanum c (htya c hc)
    · decide
  refine matchToks_plus_greedy isDot (.lit '.' :: rrTail) n _ _ hn hnd
    (matchToks_lit '.' _ _ _ htail) ?_
  intro p q hp hpq
  cases q with
  | nil => rfl
  | cons x q' =>
    by_cases hx : x = '.'
    swap
    · exact matchToks_lit_ne _ _ _ _ hx
    subst hx
    apply hsuf
    -- the end `'.' :: q'` of the line lies inside the value
    have hb : '.' :: ' ' :: (t ++ ' ' :: 'I' :: 'N' :: ' ' :: (ty ++ ' ' :: v))
        = ('.' :: ' ' :: (t ++ ' ' :: 'I' :: 'N' :: ' ' :: (ty ++ [' ']))) ++ v := by simp
    rw [hb, List.append_eq_append_iff] at hpq
    rcases hpq with ⟨a', ha1, ha2⟩ | ⟨c', hc1, hc2⟩
    · cases a' with
      | nil =>
        rw [List.nil_append] at ha2
        exact ⟨[], by simp [ha2]⟩
      | cons y a'' =>
        exfalso
        rw [List.cons_append, List.cons.injEq] at ha2
        have hy : y = '.' := ha2.1.symm
        subst hy
        cases p with
        | nil => exact hp rfl
        | cons z p' =>
          rw [List.cons_append, List.cons.injEq] at ha1
          have hmem : '.' ∈ ' ' :: (t ++ ' ' :: 'I' :: 'N' :: ' ' :: (ty ++ [' '])) := by
            rw [ha1.2]
            simp
          exact hmid '.' hmem rfl
    · exact ⟨c', hc2.symm⟩

theorem noRecordTail_spec (v : List Char) (h : noRecordTail v = true) :
    ∀ q, '.' :: q <:+ v → ¬ Matches rrTail q := by
  intro q hq hm
  rw [noRecordTail, List.all_eq_true] at h
  have := h ('.' :: q) ((List.mem_tails _ _).2 hq)
  simp only [Option.isNone_iff_eq_none] at this
  have h2 := (matchToks_matches rrTail q).2 hm
  rw [this] at h2
  cases h2

theorem exampleDeps_exact : exampleDeps.ExactOnWholeSeconds := by
  intro s _ _
  exact Int.mul_tdiv_cancel s (by decide)

/-- Claim C1, refuted as stated, on records that meet its conditions: a value holding
`. 1 IN A c` is split at its own dot (the name group is greedy); the root name `.` has no
character before its dot, a name holding a newline is outside `.+`, an empty value leaves
nothing for the last group, and all three make `ParseRR` panic; a value starting with a
space loses that space. -/
theorem C1_counterexample :
    (("a." : String).data.getLast? = some '.' ∧ (0 : Int) ≤ 300 * Second ∧
      ("A" : String).data ≠ [] ∧ (∀ c ∈ ("A" : String).data, c.isAlphanum = true) ∧
      ("A" : String) ≠ "TXT" ∧ (∀ c ∈ ("b. 1 IN A c" : String).data, c ≠ '\n')) ∧
    recordOfRR (formatRR exampleDeps ⟨"A", "a.", "b. 1 IN A c", 300 * Second⟩)
      = .ok ⟨"A", "a. 300 IN A b.", "c", 1 * Second⟩ ∧
    recordOfRR (formatRR exampleDeps ⟨"NS", ".", "ns1191.hexonet.net.", 3600 * Second⟩)
      = .error .indexOutOfRange ∧
    recordOfRR (formatRR exampleDeps ⟨"A", "a\nb.", "1.2.3.4", 300 * Second⟩)
      = .error .indexOutOfRange ∧
    recordOfRR (formatRR exampleDeps ⟨"A", "a.", "", 300 * Second⟩)
      = .error .indexOutOfRange ∧
    recordOfRR (formatRR exampleDeps ⟨"A", "a.", " 1.2.3.4", 300 * Second⟩)
      = .ok ⟨"A", "a.", "1.2.3.4", 300 * Second⟩ := by
  decide

/-- Claim C1, amended. For a record whose name ends in a dot, has a character before it
and no newline, whose TTL is a non-negative whole number of seconds, whose type is a
non-empty alphanumeric token other than TXT, and whose value has no newline, is not empty,
does not start with white space and in which nothing after a dot reads as
`<spaces><digits><spaces>IN<spaces><word><spaces><text>`: `ParseRR` on the formatted line
returns the name, the decimal seconds, the type and the value; `Atoi` reads the seconds
back; and the record `getDNSEntries` builds is the record itself. -/
theorem C1_roundtrip (D : Deps) (hD : D.ExactOnWholeSeconds) (r : Record) (s : Int)
    (hname : r.Name.data.getLast? = some '.') (hname2 : 2 ≤ r.Name.data.length)
    (hnameNL : ∀ c ∈ r.Name.data, c ≠ '\n')
    (hs : 0 ≤ s) (httl : r.TTL = s * Second) (hmax : r.TTL ≤ maxInt)
    (htyp : r.Typ.data ≠ []) (htypA : ∀ c ∈ r.Typ.data, c.isAlphanum = true)
    (hTXT : r.Typ ≠ "TXT")
    (hvalNL : ∀ c ∈ r.Value.data, c ≠ '\n')
    (hval0 : ∃ c rest, r.Value.data = c :: rest ∧ isSpace c = false)
    (hamb : ∀ q, '.' :: q <:+ r.Value.data → ¬ Matches rrTail q) :
    formatRR D r = r.Name ++ " " ++ fmtInt s ++ " IN " ++ r.Typ ++ " " ++ r.Value ∧
    ParseRR (formatRR D r) = .ok (r.Name, fmtInt s, r.Typ, r.Value) ∧
    Atoi (fmtInt s) = (s, none) ∧
    recordOfRR (formatRR D r) = .ok r := by
  -- the name is `n ++ "."` with `n` not empty
  obtain ⟨n, hn⟩ := List.getLast?_eq_some_iff.1 hname
  have hn0 : n ≠ [] := by
    rintro rfl
    rw [hn] at hname2
    simp at hname2
  have hnd : ∀ c ∈ n, isDot c = true := by
    intro c hc
    have := hnameNL c (by rw [hn]; exact List.mem_append_left _ hc)
    simpa [isDot] using this
  have hvd : ∀ c ∈ r.Value.data, isDot c = true := by
    intro c hc
    simpa [isDot] using hvalNL c hc
  -- the seconds
  have hSec : (0 : Int) < Second := by decide
  have hsec : D.seconds r.TTL = s := by
    rw [httl]
    rw [httl] at hmax
    exact hD s (by unfold minInt; nlinarith) hmax
  have hfmt : fmtInt s = Nat.repr s.natAbs := by
    simp [fmtInt, not_lt.2 hs]
  obtain ⟨ht0, htd, htv⟩ := repr_spec s.natAbs
  have hline : formatRR D r = r.Name ++ " " ++ fmtInt s ++ " IN " ++ r.Typ ++ " " ++ r.Value := by
    rw [formatRR, hsec, TXTSanitize_of_ne D r hTXT]
  -- the match
  have hm := matchToks_rrPattern n (Nat.repr s.natAbs).data r.Typ.data r.Value.data hn0 hnd
    ht0 htd htyp htypA hvd hval0 hamb
  have hdata : (formatRR D r).data
      = n ++ '.' :: ' ' :: ((Nat.repr s.natAbs).data ++
          ' ' :: 'I' :: 'N' :: ' ' :: (r.Typ.data ++ ' ' :: r.Value.data)) := by
    rw [formatRR_data, hsec, hfmt, TXTSanitize_of_ne D r hTXT, hn]
    simp
  have hparse : ParseRR (formatRR D r) = .ok (r.Name, fmtInt s, r.Typ, r.Value) := by
    have hname' : String.mk (n ++ ['.']) = r.Name := by rw [← hn]
    simp only [ParseRR, FindStringSubmatch, hdata, hm, hfmt, hname']
  -- the TTL
  have hbound : s.natAbs < 9223372036854775808 := by
    rw [httl] at hmax
    unfold maxInt Second at hmax
    omega
  have hatoi : Atoi (fmtInt s) = (s, none) := by
    obtain ⟨un, hun, hA⟩ := Atoi_digits (Nat.repr s.natAbs).data ht0 htd
    rw [htv] at hun
    have hun2 : un = s.natAbs := (Option.some.inj hun).symm
    subst hun2
    rw [hfmt]
    have hA2 : Atoi (Nat.repr s.natAbs) = ((s.natAbs : Int), none) := by
      simpa [not_le.2 hbound] using hA
    rw [hA2, Int.natAbs_of_nonneg hs]
  refine ⟨hline, hparse, hatoi, ?_⟩
  simp only [recordOfRR, hparse, hatoi]
  have hw : wrapInt64 (Second * s) = r.TTL := by
    rw [mul_comm, ← httl]
    exact wrapInt64_of_range r.TTL (by rw [httl]; exact mul_nonneg hs (le_of_lt hSec)) hmax
  rw [hw]

/-- Witness of `C1_roundtrip`: the record of the comment above `ParseRR`. -/
theorem C1_roundtrip_witness :
    formatRR exampleDeps ⟨"NS", "gomeing.com.", "ns1191.hexonet.net.", 3600 * Second⟩
      = "gomeing.com. 3600 IN NS ns1191.hexonet.net." ∧
    ParseRR (formatRR exampleDeps ⟨"NS", "gomeing.com.", "ns1191.hexonet.net.", 3600 * Second⟩)
      = .ok ("gomeing.com.", "3600", "NS", "ns1191.hexonet.net.") ∧
    Atoi "3600" = (3600, none) ∧
    recordOfRR (formatRR exampleDeps ⟨"NS", "gomeing.com.", "ns1191.hexonet.net.", 3600 * Second⟩)
      = .ok ⟨"NS", "gomeing.com.", "ns1191.hexonet.net.", 3600 * Second⟩ :=
  C1_roundtrip exampleDeps exampleDeps_exact
    ⟨"NS", "gomeing.com.", "ns1191.hexonet.net.", 3600 * Second⟩ 3600
    (by decide) (by decide) (by decide) (by decide) (by decide) (by decide) (by decide)
    (by decide) (by decide) (by decide) ⟨'n', "s1191.hexonet.net.".data, by decide, by decide⟩
    (noRecordTail_spec _ (by decide))

/-- Witness of `C10_SetRecords_call_sequence`: the remote lists one A record and accepts
every command; the call sends list, remove, add and returns the desired record. -/
theorem C10_SetRecords_call_sequence_witness :
    ∃ alls lresp dresp aresp,
      (newEvents freshWorld (SetRecords (hexonetClient exampleDeps
          (exampleRemote ["acme.com. 300 IN A 1.2.3.4"] ⟨true, 200, "", []⟩))
          "acme.com" [⟨"A", "acme.com.", "1.2.3.4", 600 * Second⟩] freshWorld).2).filter
          (fun e => e.method ≠ .newClient)
        = [⟨.getDNSEntries, listCmd "acme.com", lresp⟩,
           ⟨.removeDNSEntry, updateCmd exampleDeps "delrr" "acme.com"
             ([(⟨"A", "acme.com.", "1.2.3.4", 600 * Second⟩ : Record)].filterMap
               (fun r => lastWithKey alls (recordKey r))), dresp⟩,
           ⟨.addDNSEntry, updateCmd exampleDeps "addrr" "acme.com"
             [⟨"A", "acme.com.", "1.2.3.4", 600 * Second⟩], aresp⟩] ∧
      decodeRecords lresp.Records = .ok alls ∧
      (SetRecords (hexonetClient exampleDeps
          (exampleRemote ["acme.com. 300 IN A 1.2.3.4"] ⟨true, 200, "", []⟩))
          "acme.com" [⟨"A", "acme.com.", "1.2.3.4", 600 * Second⟩] freshWorld).1
        = .ok ([⟨"A", "acme.com.", "1.2.3.4", 600 * Second⟩], none) :=
  (C10_SetRecords_call_sequence exampleDeps
    (exampleRemote ["acme.com. 300 IN A 1.2.3.4"] ⟨true, 200, "", []⟩)
    "acme.com" [⟨"A", "acme.com.", "1.2.3.4", 600 * Second⟩] freshWorld).2.2.2
    (fun e he =>
      have hdec : ∀ e ∈ newEvents freshWorld (SetRecords (hexonetClient exampleDeps
          (exampleRemote ["acme.com. 300 IN A 1.2.3.4"] ⟨true, 200, "", []⟩))
          "acme.com" [⟨"A", "acme.com.", "1.2.3.4", 600 * Second⟩] freshWorld).2,
          e.resp.IsSuccess = true ∧ ∀ d ∈ e.resp.Records, e.method = .getDNSEntries →
            (FindStringSubmatch ((GoMap.get d "RR").getD "")).isSome = true := by decide
      ⟨(hdec e he).1, fun d hd hm =>
        (FindStringSubmatch_isSome _).1 ((hdec e he).2 d hd hm)⟩)

/-! ## Claim on running `SetRecords` twice -/

theorem rrEntries_get_opt (D : Deps) (pfx : String) (rs : List Record) :
    ∀ (i0 j : Nat),
      GoMap.get (rrEntries D pfx rs i0) (pfx ++ fmtInt ((i0 + j : Nat) : Int))
        = (rs[j]?).map (formatRR D) := by
  induction rs with
  | nil => intro i0 j; rfl
  | cons r rs ih =>
    intro i0 j
    cases j with
    | zero => simp [rrEntries, List.enumFrom, GoMap.get]
    | succ j =>
      have hne : ¬ pfx ++ fmtInt (i0 : Int) = pfx ++ fmtInt ((i0 + (j + 1) : Nat) : Int) := by
        intro h
        have := rrKey_inj pfx _ _ h
        omega
      have := ih (i0 + 1) j
      have he : i0 + 1 + j = i0 + (j + 1) := by omega
      rw [he] at this
      simp only [rrEntries, List.enumFrom, List.map_cons, GoMap.get, hne, if_false,
        List.getElem?_cons_succ]
      simpa [rrEntries] using this

theorem updateCmd_get_opt (D : Deps) (pfx : String) (hp : pfx = "addrr" ∨ pfx = "delrr")
    (zone : String) (rs : List Record) (j : Nat) :
    GoMap.get (updateCmd D pfx zone rs) (pfx ++ fmtInt ((0 + j : Nat) : Int))
      = (rs[j]?).map (formatRR D) := by
  rw [updateCmd_eq D pfx hp]
  have h := rrKey_ne pfx hp (fmtInt ((0 + j : Nat) : Int))
  simp only [GoMap.get, if_neg h.1.symm, if_neg h.2.symm]
  exact rrEntries_get_opt D pfx rs 0 j

theorem listedFrom_eq (D : Deps) (pfx : String) (m : GoMap String) (rs : List Record) :
    ∀ (fuel i0 : Nat), rs.length < fuel →
      (∀ j : Nat, GoMap.get m (pfx ++ fmtInt ((i0 + j : Nat) : Int))
        = (rs[j]?).map (formatRR D)) →
      listedFrom pfx m fuel i0 = rs.map (formatRR D) := by
  induction rs with
  | nil =>
    intro fuel i0 hf h
    cases fuel with
    | zero => simp at hf
    | succ fuel =>
      have h0 := h 0
      simp only [Nat.add_zero, List.getElem?_nil, Option.map_none'] at h0
      simp [listedFrom, h0]
  | cons r rs ih =>
    intro fuel i0 hf h
    cases fuel with
    | zero => simp at hf
    | succ fuel =>
      have h0 := h 0
      simp only [Nat.add_zero, List.getElem?_cons_zero, Option.map_some'] at h0
      have := ih fuel (i0 + 1) (by simpa using hf) (fun j => by
        have hj := h (j + 1)
        have he : i0 + 1 + j = i0 + (j + 1) := by omega
        rw [he]
        simpa using hj)
      simp [listedFrom, h0, this]

/-- The lines the command of `addDNSEntry` / `removeDNSEntry` lists are the lines of the
records, in order. -/
theorem listed_updateCmd (D : Deps) (pfx : String) (hp : pfx = "addrr" ∨ pfx = "delrr")
    (zone : String) (rs : List Record) :
    listed pfx (updateCmd D pfx zone rs) = rs.map (formatRR D) := by
  unfold listed
  apply listedFrom_eq D pfx _ rs
  · have := (updateCmd_spec D pfx hp zone rs).2.2.2.2.2.2
    omega
  · intro j
    exact updateCmd_get_opt D pfx hp zone rs j

theorem GoMap.mem_of_get {α : Type} (m : GoMap α) (k : String) (v : α)
    (h : GoMap.get m k = some v) : (k, v) ∈ m := by
  induction m with
  | nil => simp [GoMap.get] at h
  | cons e m ih =>
    obtain ⟨k1, v1⟩ := e
    by_cases h1 : k1 = k
    · simp only [GoMap.get, h1, if_true, Option.some.injEq] at h
      simp [h1, h]
    · simp only [GoMap.get, h1, if_false] at h
      exact List.mem_cons_of_mem _ (ih h)

theorem addrr_ne_delrr (a b : String) : "addrr" ++ a ≠ "delrr" ++ b := by
  intro e
  have h : ("addrr" ++ a).data = 'a' :: 'd' :: 'd' :: 'r' :: 'r' :: a.data := rfl
  have h2 : ("delrr" ++ b).data = 'd' :: 'e' :: 'l' :: 'r' :: 'r' :: b.data := rfl
  rw [e, h2] at h
  cases h

/-- The command of `removeDNSEntry` lists nothing to add, that of `addDNSEntry` nothing to
delete. -/
theorem listed_updateCmd_other (D : Deps) (zone : String) (rs : List Record) :
    listed "addrr" (updateCmd D "delrr" zone rs) = [] ∧
    listed "delrr" (updateCmd D "addrr" zone rs) = [] := by
  have hd := updateCmd_spec D "delrr" (Or.inr rfl) zone rs
  have ha := updateCmd_spec D "addrr" (Or.inl rfl) zone rs
  constructor
  · unfold listed
    rw [hd.2.2.2.2.2.2]
    simp only [listedFrom]
    cases hg : GoMap.get (updateCmd D "delrr" zone rs) ("addrr" ++ fmtInt ((0 : Nat) : Int)) with
    | none => rfl
    | some v =>
      exfalso
      rcases hd.2.2.2.2.1 _ v (GoMap.mem_of_get _ _ _ hg) with h | h | ⟨i, _, h⟩
      · exact (rrKey_ne "addrr" (Or.inl rfl) _).1 h
      · exact (rrKey_ne "addrr" (Or.inl rfl) _).2 h
      · exact addrr_ne_delrr _ _ h
  · unfold listed
    rw [ha.2.2.2.2.2.2]
    simp only [listedFrom]
    cases hg : GoMap.get (updateCmd D "addrr" zone rs) ("delrr" ++ fmtInt ((0 : Nat) : Int)) with
    | none => rfl
    | some v =>
      exfalso
      rcases ha.2.2.2.2.1 _ v (GoMap.mem_of_get _ _ _ hg) with h | h | ⟨i, _, h⟩
      · exact (rrKey_ne "delrr" (Or.inr rfl) _).1 h
      · exact (rrKey_ne "delrr" (Or.inr rfl) _).2 h
      · exact addrr_ne_delrr _ _ h.symm

theorem decodeRecords_mem (ds : List (GoMap String)) (alls : List Record)
    (h : decodeRecords ds = .ok alls) :
    ∀ o, o ∈ alls ↔ ∃ d ∈ ds, recordOfRR ((GoMap.get d "RR").getD "") = .ok o := by
  induction ds generalizing alls with
  | nil =>
    simp only [decodeRecords, Except.ok.injEq] at h
    subst h
    simp
  | cons d ds ih =>
    simp only [decodeRecords] at h
    cases hr : recordOfRR ((GoMap.get d "RR").getD "") with
    | error a => rw [hr] at h; cases h
    | ok r =>
      rw [hr] at h
      cases hrest : decodeRecords ds with
      | error a => rw [hrest] at h; cases h
      | ok rs =>
        rw [hrest] at h
        simp only [Except.ok.injEq] at h
        subst h
        intro o
        simp only [List.mem_cons, ih rs hrest o, exists_eq_or_imp, hr, Except.ok.injEq]
        constructor
        · rintro (h | h)
          · exact Or.inl h.symm
          · exact Or.inr h
        · rintro (h | h)
          · exact Or.inl h.symm
          · exact Or.inr h

theorem decodeRecords_of_all_ok (ds : List (GoMap String))
    (h : ∀ d ∈ ds, ∃ r, recordOfRR ((GoMap.get d "RR").getD "") = .ok r) :
    ∃ alls, decodeRecords ds = .ok alls := by
  induction ds with
  | nil => exact ⟨[], rfl⟩
  | cons d ds ih =>
    obtain ⟨alls, ha⟩ := ih (fun x hx => h x (List.mem_cons_of_mem _ hx))
    obtain ⟨r, hr⟩ := h d (List.mem_cons_self _ _)
    exact ⟨r :: alls, by simp only [decodeRecords, hr, ha]⟩

/-- A decoded record has a type of word characters: no colon. -/
theorem recordOfRR_typ (l : String) (r : Record) (h : recordOfRR l = .ok r) :
    ':' ∉ r.Typ.data := by
  unfold recordOfRR at h
  cases hp : ParseRR l with
  | error a => rw [hp] at h; cases h
  | ok g =>
    obtain ⟨name, ttl, typ, value⟩ := g
    rw [hp] at h
    simp only [Except.ok.injEq] at h
    subst h
    obtain ⟨n, w1, w2, w3, w4, hm, -⟩ := ParseRR_ok l name ttl typ value hp
    have hs := (matchToks_sound _ _ _ hm).1
    simp only [rrPattern, rrTail, List.forall₂_cons, PieceOK] at hs
    obtain ⟨-, -, -, -, -, -, -, -, ⟨-, hw⟩, -⟩ := hs
    intro hc
    exact absurd (hw ':' hc) (by decide)

theorem mem_zonePairs (z : List String) (p : String × String) :
    p ∈ zonePairs z ↔ ∃ l ∈ z, ∃ r, recordOfRR l = .ok r ∧ p = (r.Typ, r.Value) := by
  unfold zonePairs
  rw [List.mem_filterMap]
  constructor
  · rintro ⟨l, hl, h⟩
    cases hr : recordOfRR l with
    | error a => rw [hr] at h; cases h
    | ok r =>
      rw [hr] at h
      simp only [Option.some.injEq] at h
      exact ⟨l, hl, r, hr, h.symm⟩
  · rintro ⟨l, hl, r, hr, rfl⟩
    exact ⟨l, hl, by rw [hr]⟩

/-- The run of `SetRecords` when the client is there and the remote API accepts the list
command with lines that decode, the remove command and the add command. -/
theorem SetRecords_run_ok {σ : Type} (D : Deps) (R : Remote σ) (zone : String)
    (records : List Record) (w w1 : World σ) (alls : List Record)
    (hc : Provider.client R w = (none, w1))
    (hl : (R.Request (listCmd zone) w1.remote).1.IsSuccess = true)
    (hd : decodeRecords (R.Request (listCmd zone) w1.remote).1.Records = .ok alls)
    (hr : (R.Request (updateCmd D "delrr" zone (diffRecords alls records).2)
      (R.Request (listCmd zone) w1.remote).2).1.IsSuccess = true)
    (ha : (R.Request (updateCmd D "addrr" zone (diffRecords alls records).1)
      (R.Request (updateCmd D "delrr" zone (diffRecords alls records).2)
        (R.Request (listCmd zone) w1.remote).2).2).1.IsSuccess = true) :
    (SetRecords (hexonetClient D R) zone records w).1 = .ok (records, none) ∧
    (SetRecords (hexonetClient D R) zone records w).2.remote
      = (R.Request (updateCmd D "addrr" zone (diffRecords alls records).1)
          (R.Request (updateCmd D "delrr" zone (diffRecords alls records).2)
            (R.Request (listCmd zone) w1.remote).2).2).2 := by
  simp only [SetRecords, hexonetClient, hc, client.getDNSEntries, request, hl,
    Bool.true_eq_false, if_false, hd, client.removeDNSEntry, client.addDNSEntry, hr, ha,
    and_self]

theorem Provider.client_zone {σ : Type} (R : Remote σ) (zone : String)
    (lines : σ → List String) (hR : ZoneRemote R zone lines) (w : World σ) :
    ∃ w1, Provider.client R w = (none, w1) ∧ ∀ l, l ∈ lines w1.remote ↔ l ∈ lines w.remote := by
  unfold Provider.client
  by_cases hc : w.c = true
  · exact ⟨w, by simp [hc], fun l => Iff.rfl⟩
  · have hlog := hR.1 w.remote
    refine ⟨(⟨(R.Login w.remote).2, true,
      w.trace ++ [⟨.newClient, [], (R.Login w.remote).1⟩]⟩ : World σ), ?_, hlog.2⟩
    simp [hc, hlog.1]

theorem lastWithKey_some (alls : List Record) (k : String) (o : Record)
    (h : lastWithKey alls k = some o) : o ∈ alls ∧ recordKey o = k := by
  unfold lastWithKey at h
  refine ⟨List.mem_reverse.1 (List.mem_of_find?_eq_some h), ?_⟩
  have := List.find?_some h
  simpa using this

/-- One `SetRecords` call on a zone of lines that all decode: it returns the desired
records; it deletes the lines of records `dels`, each decoded from a line of the zone and
sharing its key with a desired record, and inserts the lines of the desired records. -/
theorem SetRecords_zone_step {σ : Type} (D : Deps) (R : Remote σ) (zone : String)
    (lines : σ → List String) (hR : ZoneRemote R zone lines) (desired : List Record)
    (w : World σ) (hz : ∀ l ∈ lines w.remote, ∃ r, recordOfRR l = .ok r) :
    ∃ dels : List Record,
      (SetRecords (hexonetClient D R) zone desired w).1 = .ok (desired, none) ∧
      (∀ o ∈ dels, (∃ l ∈ lines w.remote, recordOfRR l = .ok o) ∧
        ∃ d ∈ desired, recordKey o = recordKey d) ∧
      ∀ l, l ∈ lines (SetRecords (hexonetClient D R) zone desired w).2.remote
        ↔ (l ∈ lines w.remote ∧ l ∉ dels.map (formatRR D)) ∨ l ∈ desired.map (formatRR D) := by
  obtain ⟨w1, hc, hw1⟩ := Provider.client_zone R zone lines hR w
  obtain ⟨hl, hrecs, hl2⟩ := hR.2.1 w1.remote
  have hdec : ∀ d ∈ (R.Request (listCmd zone) w1.remote).1.Records,
      ∃ r, recordOfRR ((GoMap.get d "RR").getD "") = .ok r := by
    intro d hd
    apply hz
    rw [← hw1, ← hrecs]
    exact List.mem_map.2 ⟨d, hd, rfl⟩
  obtain ⟨alls, halls⟩ := decodeRecords_of_all_ok _ hdec
  have hmem := decodeRecords_mem _ alls halls
  have hdcmd := (updateCmd_spec D "delrr" (Or.inr rfl) zone (diffRecords alls desired).2).1
  obtain ⟨hr, hl3⟩ := hR.2.2 (R.Request (listCmd zone) w1.remote).2 _ hdcmd
  have hacmd := (updateCmd_spec D "addrr" (Or.inl rfl) zone (diffRecords alls desired).1).1
  obtain ⟨ha, hl4⟩ := hR.2.2 (R.Request (updateCmd D "delrr" zone (diffRecords alls desired).2)
    (R.Request (listCmd zone) w1.remote).2).2 _ hacmd
  obtain ⟨hout, hrem⟩ := SetRecords_run_ok D R zone desired w w1 alls hc hl halls hr ha
  refine ⟨(diffRecords alls desired).2, hout, ?_, ?_⟩
  · intro o ho
    rw [diffRecords_eq] at ho
    simp only [List.mem_filterMap] at ho
    obtain ⟨d, hd, hlast⟩ := ho
    obtain ⟨hoa, hkey⟩ := lastWithKey_some alls _ o hlast
    obtain ⟨data, hdata, hro⟩ := (hmem o).1 hoa
    refine ⟨⟨(GoMap.get data "RR").getD "", ?_, hro⟩, d, hd, hkey⟩
    rw [← hw1, ← hrecs]
    exact List.mem_map.2 ⟨data, hdata, rfl⟩
  · intro l
    rw [hrem, hl4, hl3, hl2, hw1, listed_updateCmd D "delrr" (Or.inr rfl),
      listed_updateCmd D "addrr" (Or.inl rfl), (listed_updateCmd_other D zone _).1,
      (listed_updateCmd_other D zone _).2]
    have h1 : (diffRecords alls desired).1 = desired := by rw [diffRecords_eq]
    rw [h1]
    simp

theorem lineStore_zone (front : Bool) (zone : String) :
    ZoneRemote (lineStore front) zone (fun z => z) := by
  refine ⟨fun s => ⟨rfl, fun l => Iff.rfl⟩, fun s => ⟨rfl, ?_, fun l => Iff.rfl⟩, ?_⟩
  · intro l
    simp [lineStore, listCmd, GoMap.get, List.mem_map]
  · intro s cmd hcmd
    have h1 : ¬ ("UpdateDNSZone" = "QueryDNSZoneRRList") := by decide
    refine ⟨by simp [lineStore, hcmd, h1], ?_⟩
    intro l
    cases front <;> simp [lineStore, hcmd, h1, List.mem_filter, or_comm]

/-- Claim C8, refuted as stated, with the client of `client.go` on a zone of lines. First
zone, additions inserted last: the desired record has a colon in its type and a name that
holds the start of a record line; both calls return it, and the pair (A, b:c), present
after the first call, is gone after the second. Second zone, additions inserted first:
the desired record is plain, a line of the zone has a TTL beyond 64 bits, and the pair
(B, y. -1 IN A v) is present after the first call and gone after the second. -/
theorem C8_counterexample :
    ((SetRecords (hexonetClient exampleDeps (lineStore false)) "acme.com"
        [⟨"A:b", "x. 5 IN A y.", "c", 300 * Second⟩]
        ⟨["q. 2 IN A b:c", "p. 1 IN A b:c"], false, []⟩).1
      = .ok ([⟨"A:b", "x. 5 IN A y.", "c", 300 * Second⟩], none) ∧
    (SetRecords (hexonetClient exampleDeps (lineStore false)) "acme.com"
        [⟨"A:b", "x. 5 IN A y.", "c", 300 * Second⟩]
        (SetRecords (hexonetClient exampleDeps (lineStore false)) "acme.com"
          [⟨"A:b", "x. 5 IN A y.", "c", 300 * Second⟩]
          ⟨["q. 2 IN A b:c", "p. 1 IN A b:c"], false, []⟩).2).1
      = .ok ([⟨"A:b", "x. 5 IN A y.", "c", 300 * Second⟩], none) ∧
    ("A", "b:c") ∈ zonePairs
      (SetRecords (hexonetClient exampleDeps (lineStore false)) "acme.com"
        [⟨"A:b", "x. 5 IN A y.", "c", 300 * Second⟩]
        ⟨["q. 2 IN A b:c", "p. 1 IN A b:c"], false, []⟩).2.remote ∧
    ("A", "b:c") ∉ zonePairs
      (SetRecords (hexonetClient exampleDeps (lineStore false)) "acme.com"
        [⟨"A:b", "x. 5 IN A y.", "c", 300 * Second⟩]
        (SetRecords (hexonetClient exampleDeps (lineStore false)) "acme.com"
          [⟨"A:b", "x. 5 IN A y.", "c", 300 * Second⟩]
          ⟨["q. 2 IN A b:c", "p. 1 IN A b:c"], false, []⟩).2).2.remote) ∧
    (recordOfRR (formatRR exampleDeps ⟨"A", "z.", "v", 300 * Second⟩)
      = .ok ⟨"A", "z.", "v", 300 * Second⟩ ∧
    (SetRecords (hexonetClient exampleDeps (lineStore true)) "acme.com"
        [⟨"A", "z.", "v", 300 * Second⟩]
        (SetRecords (hexonetClient exampleDeps (lineStore true)) "acme.com"
          [⟨"A", "z.", "v", 300 * Second⟩]
          ⟨["x. 7 IN B y. -1 IN A v", "x. 7 IN B y. 99999999999999999999 IN A v",
            "w. 1 IN A v"], false, []⟩).2).1
      = .ok ([⟨"A", "z.", "v", 300 * Second⟩], none) ∧
    ("B", "y. -1 IN A v") ∈ zonePairs
      (SetRecords (hexonetClient exampleDeps (lineStore true)) "acme.com"
        [⟨"A", "z.", "v", 300 * Second⟩]
        ⟨["x. 7 IN B y. -1 IN A v", "x. 7 IN B y. 99999999999999999999 IN A v",
          "w. 1 IN A v"], false, []⟩).2.remote ∧
    ("B", "y. -1 IN A v") ∉ zonePairs
      (SetRecords (hexonetClient exampleDeps (lineStore true)) "acme.com"
        [⟨"A", "z.", "v", 300 * Second⟩]
        (SetRecords (hexonetClient exampleDeps (lineStore true)) "acme.com"
          [⟨"A", "z.", "v", 300 * Second⟩]
          ⟨["x. 7 IN B y. -1 IN A v", "x. 7 IN B y. 99999999999999999999 IN A v",
            "w. 1 IN A v"], false, []⟩).2).2.remote) := by
  decide

/-- Claim C8, amended. The remote API keeps the zone as a collection of record lines, in
any order: the list command returns them, the remove command deletes the listed lines, the
add command inserts the listed lines, and every call succeeds. When every line of the zone
is the line the adapter formats for the record it decodes to, and the line codec gives
back every desired record, `SetRecords` with the desired list returns it twice in a row,
the zone holds the (Type, Value) pair of every desired record after the first call, and
the (Type, Value) pairs of the zone after the second call are those after the first. -/
theorem C8_SetRecords_idempotent {σ : Type} (D : Deps) (R : Remote σ) (zone : String)
    (lines : σ → List String) (hR : ZoneRemote R zone lines) (desired : List Record)
    (w : World σ) (hz : ∀ l ∈ lines w.remote, Canonical D l)
    (hd : ∀ d ∈ desired, recordOfRR (formatRR D d) = .ok d) :
    (SetRecords (hexonetClient D R) zone desired w).1 = .ok (desired, none) ∧
    (SetRecords (hexonetClient D R) zone desired
        (SetRecords (hexonetClient D R) zone desired w).2).1 = .ok (desired, none) ∧
    (∀ d ∈ desired, (d.Typ, d.Value)
      ∈ zonePairs (lines (SetRecords (hexonetClient D R) zone desired w).2.remote)) ∧
    ∀ p, p ∈ zonePairs (lines (SetRecords (hexonetClient D R) zone desired
          (SetRecords (hexonetClient D R) zone desired w).2).2.remote)
        ↔ p ∈ zonePairs (lines (SetRecords (hexonetClient D R) zone desired w).2.remote) := by
  obtain ⟨dels1, hout1, -, hlines1⟩ := SetRecords_zone_step D R zone lines hR desired w
    (fun l hl => (hz l hl).imp (fun r hr => hr.1))
  generalize (SetRecords (hexonetClient D R) zone desired w).2 = w2 at hlines1 ⊢
  have hdes : ∀ d ∈ desired, formatRR D d ∈ lines w2.remote := fun d hd' =>
    (hlines1 _).2 (Or.inr (List.mem_map.2 ⟨d, hd', rfl⟩))
  have hinv : ∀ l ∈ lines w2.remote, Canonical D l := by
    intro l hl
    rcases (hlines1 l).1 hl with ⟨h, -⟩ | h
    · exact hz l h
    · obtain ⟨d, hd', rfl⟩ := List.mem_map.1 h
      exact ⟨d, hd d hd', rfl⟩
  obtain ⟨dels2, hout2, hdels2, hlines2⟩ := SetRecords_zone_step D R zone lines hR desired w2
    (fun l hl => (hinv l hl).imp (fun r hr => hr.1))
  generalize (SetRecords (hexonetClient D R) zone desired w2).2 = w3 at hlines2 ⊢
  refine ⟨hout1, hout2, ?_, ?_⟩
  · intro d hd'
    exact (mem_zonePairs _ _).2 ⟨formatRR D d, hdes d hd', d, hd d hd', rfl⟩
  · intro p
    rw [mem_zonePairs, mem_zonePairs]
    constructor
    · rintro ⟨l, hl, r, hr, rfl⟩
      refine ⟨l, ?_, r, hr, rfl⟩
      rcases (hlines2 l).1 hl with ⟨h, -⟩ | h
      · exact h
      · obtain ⟨d, hd', rfl⟩ := List.mem_map.1 h
        exact hdes d hd'
    · rintro ⟨l, hl, r, hr, rfl⟩
      by_cases hdel : l ∈ dels2.map (formatRR D)
      · -- the line is deleted: it is the line of an old record with the key of a desired
        -- record, whose own line is inserted
        obtain ⟨o, ho, rfl⟩ := List.mem_map.1 hdel
        obtain ⟨⟨l', hl', hro⟩, d, hd', hkey⟩ := hdels2 o ho
        obtain ⟨r', hr', hfmt⟩ := hinv l' hl'
        have hor : r' = o := by
          rw [hro] at hr'
          exact (Except.ok.inj hr').symm
        subst hor
        rw [hfmt, hro] at hr
        have hor2 : r = r' := (Except.ok.inj hr).symm
        subst hor2
        have hpair := (recordKey_inj r d (recordOfRR_typ _ _ hro)
          (recordOfRR_typ _ _ (hd d hd'))).1 hkey
        refine ⟨formatRR D d, (hlines2 _).2 (Or.inr (List.mem_map.2 ⟨d, hd', rfl⟩)), d,
          hd d hd', ?_⟩
        rw [hpair.1, hpair.2]
      · exact ⟨l, (hlines2 l).2 (Or.inl ⟨hl, hdel⟩), r, hr, rfl⟩

/-- Witness of `C8_SetRecords_idempotent`: a zone of two lines, the desired A and CNAME
records. -/
theorem C8_SetRecords_idempotent_witness :
    (SetRecords (hexonetClient exampleDeps (lineStore false)) "acme.com" exampleDesired
        ⟨["acme.com. 300 IN A 1.2.3.4", "acme.com. 300 IN MX 10 mail.acme.com."],
          false, []⟩).1 = .ok (exampleDesired, none) ∧
    (SetRecords (hexonetClient exampleDeps (lineStore false)) "acme.com" exampleDesired
        (SetRecords (hexonetClient exampleDeps (lineStore false)) "acme.com" exampleDesired
          ⟨["acme.com. 300 IN A 1.2.3.4", "acme.com. 300 IN MX 10 mail.acme.com."],
            false, []⟩).2).1 = .ok (exampleDesired, none) ∧
    (∀ d ∈ exampleDesired, (d.Typ, d.Value)
      ∈ zonePairs ((fun z : List String => z)
        (SetRecords (hexonetClient exampleDeps (lineStore false)) "acme.com" exampleDesired
          ⟨["acme.com. 300 IN A 1.2.3.4", "acme.com. 300 IN MX 10 mail.acme.com."],
            false, []⟩).2.remote)) ∧
    ∀ p, p ∈ zonePairs ((fun z : List String => z)
          (SetRecords (hexonetClient exampleDeps (lineStore false)) "acme.com" exampleDesired
            (SetRecords (hexonetClient exampleDeps (lineStore false)) "acme.com"
              exampleDesired
              ⟨["acme.com. 300 IN A 1.2.3.4", "acme.com. 300 IN MX 10 mail.acme.com."],
                false, []⟩).2).2.remote)
        ↔ p ∈ zonePairs ((fun z : List String => z)
          (SetRecords (hexonetClient exampleDeps (lineStore false)) "acme.com" exampleDesired
            ⟨["acme.com. 300 IN A 1.2.3.4", "acme.com. 300 IN MX 10 mail.acme.com."],
              false, []⟩).2.remote) :=
  C8_SetRecords_idempotent exampleDeps (lineStore false) "acme.com" (fun z => z)
    (lineStore_zone false "acme.com") exampleDesired
    ⟨["acme.com. 300 IN A 1.2.3.4", "acme.com. 300 IN MX 10 mail.acme.com."], false, []⟩
    (fun l hl => by
      simp only [List.mem_cons, List.mem_singleton, List.not_mem_nil, or_false] at hl
      rcases hl with rfl | rfl
      · exact ⟨⟨"A", "acme.com.", "1.2.3.4", 300 * Second⟩, by decide, by decide⟩
      · exact ⟨⟨"MX", "acme.com.", "10 mail.acme.com.", 300 * Second⟩, by decide, by decide⟩)
    (by decide)

end Hexonet
